import Mathlib

/-!
Shallow embedding of the `ursula` SQL lexer (src/parser/token.rs and
src/parser/lexer.rs) and proofs about its tokenization behaviour.

Modelling conventions:
* Rust `&str` input is modelled as `List Char`; byte positions are `Nat`
  computed with `Char.utf8Size` (identical to Rust's `char::len_utf8`).
* `StringReader.char_at` slices at a byte position; Rust panics when the
  position is strictly inside a multi-byte character, the model returns
  `none` there (the lexer only ever probes character boundaries).
* Rust `Option` maps to `Option`; the lexer's `next_token` returns
  `Result<LexedToken, SyntaxError>` but its error path is
  `unimplemented!()` (a panic): the model returns `Option`, with `none`
  standing for that panic and `some` for `Ok`.
* `char::is_whitespace` is the Unicode `White_Space` predicate, spelled
  out below; `str::to_lowercase`, restricted to the characters accepted
  by `is_ident_cont` (ASCII alphanumerics, `_`, `$`, U+0080–U+00FF), is
  the character-wise map `charToLowercase`.
-/

namespace Ursula

/-- Total byte length of a character list (Rust `str::len`). -/
def byteLen : List Char → Nat
  | [] => 0
  | c :: cs => c.utf8Size + byteLen cs

/-- The character starting at byte position `pos`, if any
(Rust `&input[pos..].chars().next()` guarded by `input.len() > pos`;
`none` at a non-boundary position, where Rust would panic — the lexer
only probes boundaries). -/
def charAt : List Char → Nat → Option Char
  | [], _ => none
  | c :: cs, pos =>
    if pos = 0 then some c
    else if pos < c.utf8Size then none
    else charAt cs (pos - c.utf8Size)

/-- Rust `char::is_whitespace`: the Unicode `White_Space` code points. -/
def rustIsWhitespace (c : Char) : Bool :=
  let n := c.toNat
  (0x09 ≤ n && n ≤ 0x0D) || n == 0x20 || n == 0x85 || n == 0xA0 || n == 0x1680 ||
    (0x2000 ≤ n && n ≤ 0x200A) || n == 0x2028 || n == 0x2029 || n == 0x202F ||
    n == 0x205F || n == 0x3000

/-- Rust `char::to_lowercase` restricted to the characters that can occur
in an identifier run (ASCII plus U+0080–U+00FF): ASCII `A`–`Z` and the
Latin-1 uppercase letters U+00C0–U+00DE (excluding `×` U+00D7) map 0x20
upward, everything else in that domain is fixed. -/
def charToLowercase (c : Char) : Char :=
  let n := c.toNat
  if 0x41 ≤ n && n ≤ 0x5A then Char.ofNat (n + 0x20)
  else if (0xC0 ≤ n && n ≤ 0xDE) && !(n == 0xD7) then Char.ofNat (n + 0x20)
  else c

/-- `fn is_ident_start` (lexer.rs): `'a'..='z' | 'A'..='Z' | '\u{80}'..='\u{FF}' | '_'`. -/
def is_ident_start (c : Char) : Bool :=
  let n := c.toNat
  (0x61 ≤ n && n ≤ 0x7A) || (0x41 ≤ n && n ≤ 0x5A) || (0x80 ≤ n && n ≤ 0xFF) ||
    n == 0x5F

/-- `fn is_ident_cont` (lexer.rs): identifier starts plus `'0'..='9'`, `'_'`, `'$'`. -/
def is_ident_cont (c : Char) : Bool :=
  let n := c.toNat
  (0x61 ≤ n && n ≤ 0x7A) || (0x41 ≤ n && n ≤ 0x5A) || (0x80 ≤ n && n ≤ 0xFF) ||
    (0x30 ≤ n && n ≤ 0x39) || n == 0x5F || n == 0x24

/-- `fn is_single_byte_op_char` (lexer.rs): `+ - * / % = < >`. -/
def is_single_byte_op_char (c : Char) : Bool :=
  let n := c.toNat
  n == 0x2B || n == 0x2D || n == 0x2A || n == 0x2F || n == 0x25 || n == 0x3D ||
    n == 0x3C || n == 0x3E

/-- `fn is_multi_byte_op_start` (lexer.rs): `! < >`. -/
def is_multi_byte_op_start (c : Char) : Bool :=
  let n := c.toNat
  n == 0x21 || n == 0x3C || n == 0x3E

/-- `fn is_multi_byte_op_cont` (lexer.rs): `= >`. -/
def is_multi_byte_op_cont (c : Char) : Bool :=
  let n := c.toNat
  n == 0x3D || n == 0x3E

/-- `enum Keyword` (token.rs). -/
inductive Keyword
  | From
  | Select
  | Where
deriving DecidableEq

/-- `enum Op` (token.rs). -/
inductive Op
  | Minus
  | Plus
  | Star
  | Slash
  | Percent
  | Eq
  | NotEq
  | Lt
  | Gt
  | LtEq
  | GtEq
deriving DecidableEq

/-- `enum Token` (token.rs). -/
inductive Token
  | Keyword : Keyword → Token
  | Ident : List Char → Token
  | Op : Op → Token
  | Whitespace
  | Comment : List Char → Token
  | Eof
deriving DecidableEq

/-- `impl FromStr for Keyword` (token.rs): lowercase then compare against
`"from"`, `"select"`, `"where"`; `none` models `Err(TokenParseError)`. -/
def Keyword.from_str (s : List Char) : Option Keyword :=
  let t := s.map charToLowercase
  if t = "from".toList then some Keyword.From
  else if t = "select".toList then some Keyword.Select
  else if t = "where".toList then some Keyword.Where
  else none

/-- `impl FromStr for Op` (token.rs). -/
def Op.from_str (s : List Char) : Option Op :=
  if s = "+".toList then some Op.Plus
  else if s = "-".toList then some Op.Minus
  else if s = "*".toList then some Op.Star
  else if s = "/".toList then some Op.Slash
  else if s = "%".toList then some Op.Percent
  else if s = "=".toList then some Op.Eq
  else if s = "<".toList then some Op.Lt
  else if s = ">".toList then some Op.Gt
  else if s = "!=".toList then some Op.NotEq
  else if s = "<>".toList then some Op.NotEq
  else if s = "<=".toList then some Op.LtEq
  else if s = ">=".toList then some Op.GtEq
  else none

/-- `type BytePos = usize` (lexer.rs). -/
def BytePos := Nat
deriving DecidableEq

/-- `struct Span` (lexer.rs): a byte range of a text segment.  The Rust
constructor `Span::new` carries `assert!(start <= end)`; the model keeps
the plain pair and that assertion is proved separately for every token
the lexer emits. -/
structure Span where
  start : Nat
  «end» : Nat
deriving DecidableEq

/-- `Span::new` (lexer.rs), minus the runtime assertion (see `Span`). -/
def Span.new (start : Nat) («end» : Nat) : Span :=
  ⟨start, «end»⟩

/-- `struct LexedToken` (lexer.rs): a token plus the byte span it covers. -/
structure LexedToken where
  token : Token
  span : Span
deriving DecidableEq

/-- `LexedToken::new` (lexer.rs). -/
def LexedToken.new (token : Token) (start : Nat) («end» : Nat) : LexedToken :=
  ⟨token, Span.new start «end»⟩

/-- `LexedToken::new_at` (lexer.rs): a zero-width token. -/
def LexedToken.new_at (token : Token) (pos : Nat) : LexedToken :=
  LexedToken.new token pos pos

/-- `struct StringReader` (lexer.rs). -/
structure StringReader where
  input : List Char
  prev_pos : Nat
  curr_pos : Nat
  curr_char : Option Char
deriving DecidableEq

namespace StringReader

/-- `StringReader::new` (lexer.rs). -/
def new (input : List Char) : StringReader :=
  ⟨input, 0, 0, input.head?⟩

/-- `StringReader::char_at` (lexer.rs). -/
def char_at (r : StringReader) (pos : Nat) : Option Char :=
  charAt r.input pos

/-- `StringReader::is_eof` (lexer.rs). -/
def is_eof (r : StringReader) : Bool :=
  r.curr_char.isNone

/-- `StringReader::is_eol` (lexer.rs). -/
def is_eol (r : StringReader) : Bool :=
  r.curr_char == some '\n'

/-- `StringReader::advance` (lexer.rs): `prev_pos` becomes the old
`curr_pos`; `curr_pos` moves past the current character (if any); the
current character is recomputed. -/
def advance (r : StringReader) : StringReader :=
  match r.curr_char with
  | some c => ⟨r.input, r.curr_pos, r.curr_pos + c.utf8Size, charAt r.input (r.curr_pos + c.utf8Size)⟩
  | none => ⟨r.input, r.curr_pos, r.curr_pos, charAt r.input r.curr_pos⟩

/-- Measure used to justify termination of the reader loops: remaining
bytes plus one when a current character is loaded.  Advancing with a
current character strictly decreases it. -/
def fuelLeft (r : StringReader) : Nat :=
  byteLen r.input - r.curr_pos + (if r.curr_char.isSome then 1 else 0)

/-- `StringReader::advance_while` (lexer.rs). -/
def advance_while (r : StringReader) (test : Char → Bool) : StringReader :=
  match h : r.curr_char with
  | some c =>
    if test c then advance_while r.advance test else r
  | none => r
termination_by fuelLeft r
decreasing_by
  have hnone : ∀ (l : List Char) (p : Nat), byteLen l ≤ p → charAt l p = none := by
    intro l
    induction l with
    | nil => intro p _; rfl
    | cons d ds ih =>
      intro p hp
      have hd : 0 < d.utf8Size := Char.utf8Size_pos d
      have hp' : d.utf8Size + byteLen ds ≤ p := hp
      rw [charAt, if_neg (by omega), if_neg (by omega)]
      exact ih (p - d.utf8Size) (by omega)
  have hd : 0 < c.utf8Size := Char.utf8Size_pos c
  by_cases hle : byteLen r.input ≤ r.curr_pos + c.utf8Size
  · have h2 : charAt r.input (r.curr_pos + c.utf8Size) = none := hnone _ _ hle
    simp [fuelLeft, advance, h, h2]
    omega
  · have hb : ∀ (o : Option Char), (if o.isSome then 1 else 0) ≤ 1 := by
      intro o; split <;> omega
    have h3 := hb (charAt r.input (r.curr_pos + c.utf8Size))
    simp [fuelLeft, advance, h]
    omega

/-- `StringReader::advance_bytes` (lexer.rs). -/
def advance_bytes (r : StringReader) (n_bytes : Nat) : StringReader :=
  ⟨r.input, r.curr_pos, r.curr_pos + n_bytes, charAt r.input (r.curr_pos + n_bytes)⟩

/-- `StringReader::peek_next` (lexer.rs). -/
def peek_next (r : StringReader) : Option Char :=
  match r.curr_char with
  | some c => r.char_at (r.curr_pos + c.utf8Size)
  | none => none

/-- `StringReader::curr_is` (lexer.rs). -/
def curr_is (r : StringReader) (c : Char) : Bool :=
  r.curr_char == some c

/-- `StringReader::next_is` (lexer.rs). -/
def next_is (r : StringReader) (c : Char) : Bool :=
  r.peek_next == some c

/-- `StringReader::read_line` (lexer.rs): read up to end of input or the
next `'\n'`, then advance once more (past the terminator, when present);
returns the text read, excluding the terminator. -/
def read_line (r : StringReader) : List Char × StringReader :=
  match h : r.curr_char with
  | none => ([], r.advance)
  | some c =>
    if c = '\n' then ([], r.advance)
    else
      let p := read_line r.advance
      (c :: p.1, p.2)
termination_by fuelLeft r
decreasing_by
  have hnone : ∀ (l : List Char) (p : Nat), byteLen l ≤ p → charAt l p = none := by
    intro l
    induction l with
    | nil => intro p _; rfl
    | cons d ds ih =>
      intro p hp
      have hd : 0 < d.utf8Size := Char.utf8Size_pos d
      have hp' : d.utf8Size + byteLen ds ≤ p := hp
      rw [charAt, if_neg (by omega), if_neg (by omega)]
      exact ih (p - d.utf8Size) (by omega)
  have hd : 0 < c.utf8Size := Char.utf8Size_pos c
  by_cases hle : byteLen r.input ≤ r.curr_pos + c.utf8Size
  · have h2 : charAt r.input (r.curr_pos + c.utf8Size) = none := hnone _ _ hle
    simp [fuelLeft, advance, h, h2]
    omega
  · have hb : ∀ (o : Option Char), (if o.isSome then 1 else 0) ≤ 1 := by
      intro o; split <;> omega
    have h3 := hb (charAt r.input (r.curr_pos + c.utf8Size))
    simp [fuelLeft, advance, h]
    omega

/-- `StringReader::read_while` (lexer.rs). -/
def read_while (r : StringReader) (test : Char → Bool) : List Char × StringReader :=
  match h : r.curr_char with
  | some c =>
    if test c then
      let p := read_while r.advance test
      (c :: p.1, p.2)
    else ([], r)
  | none => ([], r)
termination_by fuelLeft r
decreasing_by
  have hnone : ∀ (l : List Char) (p : Nat), byteLen l ≤ p → charAt l p = none := by
    intro l
    induction l with
    | nil => intro p _; rfl
    | cons d ds ih =>
      intro p hp
      have hd : 0 < d.utf8Size := Char.utf8Size_pos d
      have hp' : d.utf8Size + byteLen ds ≤ p := hp
      rw [charAt, if_neg (by omega), if_neg (by omega)]
      exact ih (p - d.utf8Size) (by omega)
  have hd : 0 < c.utf8Size := Char.utf8Size_pos c
  by_cases hle : byteLen r.input ≤ r.curr_pos + c.utf8Size
  · have h2 : charAt r.input (r.curr_pos + c.utf8Size) = none := hnone _ _ hle
    simp [fuelLeft, advance, h, h2]
    omega
  · have hb : ∀ (o : Option Char), (if o.isSome then 1 else 0) ≤ 1 := by
      intro o; split <;> omega
    have h3 := hb (charAt r.input (r.curr_pos + c.utf8Size))
    simp [fuelLeft, advance, h]
    omega

end StringReader

/-- `struct Lexer` (lexer.rs). -/
structure Lexer where
  reader : StringReader
deriving DecidableEq

namespace Lexer

/-- `Lexer::new` (lexer.rs). -/
def new (input : List Char) : Lexer :=
  ⟨StringReader.new input⟩

/-- `Lexer::scan_whitespace` (lexer.rs); `consume_whitespace` is inlined
as `advance_while char::is_whitespace`. -/
def scan_whitespace (l : Lexer) : Option (LexedToken × Lexer) :=
  let c := l.reader.curr_char.getD (Char.ofNat 0)
  if rustIsWhitespace c then
    let start := l.reader.curr_pos
    let r := l.reader.advance_while rustIsWhitespace
    some (LexedToken.new Token.Whitespace start r.prev_pos, ⟨r⟩)
  else none

/-- `Lexer::scan_comment` (lexer.rs). -/
def scan_comment (l : Lexer) : Option (LexedToken × Lexer) :=
  if l.reader.curr_is '-' && l.reader.next_is '-' then
    let start := l.reader.curr_pos
    let r := l.reader.advance.advance
    let p := r.read_line
    some (LexedToken.new (Token.Comment p.1) start p.2.prev_pos, ⟨p.2⟩)
  else none

/-- `Lexer::scan_eof` (lexer.rs). -/
def scan_eof (l : Lexer) : Option (LexedToken × Lexer) :=
  if l.reader.is_eof then
    some (LexedToken.new_at Token.Eof l.reader.prev_pos, l)
  else none

/-- `Lexer::scan_single_byte_operator` (lexer.rs).  The Rust code calls
`curr_char.unwrap()`; the scan is only reached with a current character
loaded (`scan_eof` runs first), and the model returns `none` on the
unreachable `none` branch. -/
def scan_single_byte_operator (l : Lexer) : Option (LexedToken × Lexer) :=
  match l.reader.curr_char with
  | none => none
  | some curr =>
    if !is_single_byte_op_char curr then none
    else
      match Op.from_str [curr] with
      | some op =>
        let pos := l.reader.curr_pos
        some (LexedToken.new_at (Token.Op op) pos, ⟨l.reader.advance⟩)
      | none => none

/-- `Lexer::scan_multi_byte_operator` (lexer.rs): build a candidate from
the current character plus (when it continues an operator) one character
of lookahead, match it against the operator table, and on success
advance by the candidate's byte length. -/
def scan_multi_byte_operator (l : Lexer) : Option (LexedToken × Lexer) :=
  match l.reader.curr_char with
  | none => none
  | some curr =>
    if !is_multi_byte_op_start curr then none
    else
      let next := l.reader.peek_next.getD (Char.ofNat 0)
      let s := if is_multi_byte_op_cont next then [curr, next] else [curr]
      match Op.from_str s with
      | some op =>
        let start := l.reader.curr_pos
        let «end» := start + byteLen s - 1
        some (LexedToken.new (Token.Op op) start «end», ⟨l.reader.advance_bytes (byteLen s)⟩)
      | none => none

/-- `Lexer::scan_operator` (lexer.rs): multi-character form first, then
the single-character form. -/
def scan_operator (l : Lexer) : Option (LexedToken × Lexer) :=
  match scan_multi_byte_operator l with
  | some t => some t
  | none => scan_single_byte_operator l

/-- `Lexer::scan_keyword_or_unquoted_identifier` (lexer.rs): read the
maximal identifier run, lowercase it, and classify via `Keyword::from_str`. -/
def scan_keyword_or_unquoted_identifier (l : Lexer) : LexedToken × Lexer :=
  let start := l.reader.curr_pos
  let p := l.reader.read_while is_ident_cont
  let ident := p.1.map charToLowercase
  let tok :=
    match Keyword.from_str ident with
    | some keyword => Token.Keyword keyword
    | none => Token.Ident ident
  (LexedToken.new tok start p.2.prev_pos, ⟨p.2⟩)

/-- `Lexer::next_token_opt` (lexer.rs): the ordered scan chain. -/
def next_token_opt (l : Lexer) : Option (LexedToken × Lexer) :=
  match scan_eof l with
  | some t => some t
  | none =>
    match scan_whitespace l with
    | some t => some t
    | none =>
      match scan_comment l with
      | some t => some t
      | none => scan_operator l

/-- `Lexer::next_token_res` (lexer.rs): the fallback after the optional
scans; on a non-identifier character the Rust code hits
`unimplemented!()` (a panic), modelled as `none`. -/
def next_token_res (l : Lexer) : Option (LexedToken × Lexer) :=
  match l.reader.curr_char with
  | some c => if is_ident_start c then some (scan_keyword_or_unquoted_identifier l) else none
  | none => none

/-- `Lexer::next_token` (lexer.rs): `some` models `Ok(token)` (paired
with the post-call lexer state); `none` models the `unimplemented!()`
panic on unrecognized input. -/
def next_token (l : Lexer) : Option (LexedToken × Lexer) :=
  match next_token_opt l with
  | some t => some t
  | none => next_token_res l

end Lexer

/-- Repeatedly pull tokens with `next_token` until `Eof` (which ends the
list) or the panic path (`none`); `fuel` bounds the number of calls. -/
def tokenizeFuel : Nat → Lexer → Option (List LexedToken)
  | 0, _ => none
  | fuel + 1, l =>
    match Lexer.next_token l with
    | none => none
    | some (t, l') =>
      if t.token = Token.Eof then some [t]
      else
        match tokenizeFuel fuel l' with
        | some ts => some (t :: ts)
        | none => none

/-- The source substring named by a span: the characters of the input
whose starting byte offset lies in `[s, e]` (`o` is the offset of the
list's first character). -/
def spanSlice : List Char → Nat → Nat → Nat → List Char
  | [], _, _, _ => []
  | c :: cs, o, s, e =>
    (if s ≤ o ∧ o ≤ e then [c] else []) ++ spanSlice cs (o + c.utf8Size) s e

namespace StringReader

/-- Fuel-indexed structural twin of `advance_while`, proved equal to it
whenever the fuel is at least `fuelLeft`; it exists so that concrete
runs of the lexer can be evaluated by the kernel (`decide`), which
cannot reduce well-founded fixpoints. -/
def advanceWhileFuel : Nat → StringReader → (Char → Bool) → StringReader
  | 0, r, _ => r
  | n + 1, r, test =>
    match r.curr_char with
    | some c => if test c then advanceWhileFuel n r.advance test else r
    | none => r

/-- Fuel-indexed structural twin of `read_line` (see `advanceWhileFuel`). -/
def readLineFuel : Nat → StringReader → List Char × StringReader
  | 0, r => ([], r.advance)
  | n + 1, r =>
    match r.curr_char with
    | none => ([], r.advance)
    | some c =>
      if c = '\n' then ([], r.advance)
      else
        let p := readLineFuel n r.advance
        (c :: p.1, p.2)

/-- Fuel-indexed structural twin of `read_while` (see `advanceWhileFuel`). -/
def readWhileFuel : Nat → StringReader → (Char → Bool) → List Char × StringReader
  | 0, r, _ => ([], r)
  | n + 1, r, test =>
    match r.curr_char with
    | some c =>
      if test c then
        let p := readWhileFuel n r.advance test
        (c :: p.1, p.2)
      else ([], r)
    | none => ([], r)

end StringReader

namespace Lexer

/-- Structural twin of `scan_whitespace` (see `advanceWhileFuel`). -/
def scan_whitespaceF (l : Lexer) : Option (LexedToken × Lexer) :=
  let c := l.reader.curr_char.getD (Char.ofNat 0)
  if rustIsWhitespace c then
    let start := l.reader.curr_pos
    let r := StringReader.advanceWhileFuel (StringReader.fuelLeft l.reader) l.reader
      rustIsWhitespace
    some (LexedToken.new Token.Whitespace start r.prev_pos, ⟨r⟩)
  else none

/-- Structural twin of `scan_comment` (see `advanceWhileFuel`). -/
def scan_commentF (l : Lexer) : Option (LexedToken × Lexer) :=
  if l.reader.curr_is '-' && l.reader.next_is '-' then
    let start := l.reader.curr_pos
    let r := l.reader.advance.advance
    let p := StringReader.readLineFuel (StringReader.fuelLeft r) r
    some (LexedToken.new (Token.Comment p.1) start p.2.prev_pos, ⟨p.2⟩)
  else none

/-- Structural twin of `scan_keyword_or_unquoted_identifier`
(see `advanceWhileFuel`). -/
def scan_keyword_or_unquoted_identifierF (l : Lexer) : LexedToken × Lexer :=
  let start := l.reader.curr_pos
  let p := StringReader.readWhileFuel (StringReader.fuelLeft l.reader) l.reader is_ident_cont
  let ident := p.1.map charToLowercase
  let tok :=
    match Keyword.from_str ident with
    | some keyword => Token.Keyword keyword
    | none => Token.Ident ident
  (LexedToken.new tok start p.2.prev_pos, ⟨p.2⟩)

/-- Structural twin of `next_token_opt` (see `advanceWhileFuel`). -/
def next_token_optF (l : Lexer) : Option (LexedToken × Lexer) :=
  match scan_eof l with
  | some t => some t
  | none =>
    match scan_whitespaceF l with
    | some t => some t
    | none =>
      match scan_commentF l with
      | some t => some t
      | none => scan_operator l

/-- Structural twin of `next_token_res` (see `advanceWhileFuel`). -/
def next_token_resF (l : Lexer) : Option (LexedToken × Lexer) :=
  match l.reader.curr_char with
  | some c =>
    if is_ident_start c then some (scan_keyword_or_unquoted_identifierF l) else none
  | none => none

/-- Structural twin of `next_token` (see `advanceWhileFuel`). -/
def next_tokenF (l : Lexer) : Option (LexedToken × Lexer) :=
  match next_token_optF l with
  | some t => some t
  | none => next_token_resF l

end Lexer

/-- Structural twin of `tokenizeFuel` (see `advanceWhileFuel`). -/
def tokenizeFuelF : Nat → Lexer → Option (List LexedToken)
  | 0, _ => none
  | fuel + 1, l =>
    match Lexer.next_tokenF l with
    | none => none
    | some (t, l') =>
      if t.token = Token.Eof then some [t]
      else
        match tokenizeFuelF fuel l' with
        | some ts => some (t :: ts)
        | none => none

/-- A reader state is aligned when its input splits as `done ++ rest`
with the cursor sitting at the boundary: `curr_pos` is the byte length
of `done` and the loaded character is the head of `rest`.  Every state
reachable from `StringReader.new` is aligned. -/
structure Aligned (r : StringReader) (done rest : List Char) : Prop where
  input_eq : r.input = done ++ rest
  pos_eq : r.curr_pos = byteLen done
  curr_eq : r.curr_char = rest.head?

theorem byteLen_append (xs ys : List Char) :
    byteLen (xs ++ ys) = byteLen xs + byteLen ys := by
  induction xs with
  | nil => simp [byteLen]
  | cons c cs ih => simp [byteLen, ih]; omega

theorem byteLen_cons (c : Char) (cs : List Char) :
    byteLen (c :: cs) = c.utf8Size + byteLen cs := rfl

theorem charAt_none_of_le (l : List Char) (p : Nat) (hp : byteLen l ≤ p) :
    charAt l p = none := by
  induction l generalizing p with
  | nil => rfl
  | cons d ds ih =>
    have hd : 0 < d.utf8Size := Char.utf8Size_pos d
    have hp' : d.utf8Size + byteLen ds ≤ p := hp
    rw [charAt, if_neg (by omega), if_neg (by omega)]
    exact ih (p - d.utf8Size) (by omega)

theorem charAt_append_byteLen (xs ys : List Char) :
    charAt (xs ++ ys) (byteLen xs) = ys.head? := by
  induction xs with
  | nil =>
    cases ys with
    | nil => rfl
    | cons c cs => simp [charAt, byteLen]
  | cons d ds ih =>
    have hd : 0 < d.utf8Size := Char.utf8Size_pos d
    have : byteLen (d :: ds) = d.utf8Size + byteLen ds := rfl
    rw [List.cons_append, charAt, if_neg (by omega), if_neg (by omega), this]
    simpa using ih

theorem byteLen_dropLast_lt (p : List Char) (hp : p ≠ []) :
    byteLen p.dropLast < byteLen p := by
  obtain ⟨q, c, rfl⟩ := (List.eq_nil_or_concat p).resolve_left hp
  rw [List.concat_eq_append, List.dropLast_concat, byteLen_append]
  have := Char.utf8Size_pos c
  simp [byteLen]
  omega

theorem byteLen_dropLast_le (p : List Char) : byteLen p.dropLast ≤ byteLen p := by
  cases h : p with
  | nil => simp
  | cons c cs => exact le_of_lt (h ▸ byteLen_dropLast_lt p (by simp [h]))

namespace StringReader

theorem advance_some {r : StringReader} {c : Char} (h : r.curr_char = some c) :
    r.advance = ⟨r.input, r.curr_pos, r.curr_pos + c.utf8Size,
      charAt r.input (r.curr_pos + c.utf8Size)⟩ := by
  simp [advance, h]

theorem advance_none {r : StringReader} (h : r.curr_char = none) :
    r.advance = ⟨r.input, r.curr_pos, r.curr_pos, charAt r.input r.curr_pos⟩ := by
  simp [advance, h]

theorem aligned_new (input : List Char) : Aligned (new input) [] input :=
  ⟨rfl, rfl, rfl⟩

theorem aligned_curr {r : StringReader} {done : List Char} {c : Char} {rest₁ : List Char}
    (h : Aligned r done (c :: rest₁)) : r.curr_char = some c := by
  simpa using h.curr_eq

theorem aligned_advance {r : StringReader} {done : List Char} {c : Char} {rest₁ : List Char}
    (h : Aligned r done (c :: rest₁)) :
    Aligned r.advance (done ++ [c]) rest₁ ∧ r.advance.prev_pos = byteLen done ∧
      r.advance.curr_pos = byteLen done + c.utf8Size := by
  have hc : r.curr_char = some c := aligned_curr h
  rw [advance_some hc]
  have hpos : r.curr_pos + c.utf8Size = byteLen (done ++ [c]) := by
    rw [h.pos_eq, byteLen_append]
    simp [byteLen]
  have hin : r.input = (done ++ [c]) ++ rest₁ := by
    rw [h.input_eq]; simp
  refine ⟨⟨hin, hpos, ?_⟩, h.pos_eq, by rw [h.pos_eq]⟩
  rw [hin, hpos]
  exact charAt_append_byteLen _ _

theorem aligned_advance_eof {r : StringReader} {done : List Char}
    (h : Aligned r done []) :
    r.advance = ⟨r.input, r.curr_pos, r.curr_pos, r.curr_char⟩ ∧
      Aligned r.advance done [] := by
  have hc : r.curr_char = none := by simpa using h.curr_eq
  have hsame : charAt r.input r.curr_pos = none := by
    rw [h.input_eq, h.pos_eq]
    simpa using charAt_append_byteLen done []
  constructor
  · rw [advance_none hc, hsame, hc]
  · rw [advance_none hc]
    exact ⟨h.input_eq, h.pos_eq, by simpa using hsame⟩

theorem aligned_advance_bytes {r : StringReader} {done : List Char} (p rest' : List Char)
    (h : Aligned r done (p ++ rest')) :
    Aligned (r.advance_bytes (byteLen p)) (done ++ p) rest' ∧
      (r.advance_bytes (byteLen p)).prev_pos = byteLen done ∧
      (r.advance_bytes (byteLen p)).curr_pos = byteLen done + byteLen p := by
  have hpos : r.curr_pos + byteLen p = byteLen (done ++ p) := by
    rw [h.pos_eq, byteLen_append]
  have hin : r.input = (done ++ p) ++ rest' := by
    rw [h.input_eq]; simp
  refine ⟨⟨hin, by simpa [advance_bytes] using hpos, ?_⟩,
    by simp [advance_bytes, h.pos_eq], by simp [advance_bytes, h.pos_eq]⟩
  show charAt r.input (r.curr_pos + byteLen p) = rest'.head?
  rw [hin, hpos]
  exact charAt_append_byteLen _ _

theorem aligned_peek {r : StringReader} {done : List Char} {c : Char} {rest₁ : List Char}
    (h : Aligned r done (c :: rest₁)) : r.peek_next = rest₁.head? := by
  have hc : r.curr_char = some c := aligned_curr h
  have : r.curr_pos + c.utf8Size = byteLen (done ++ [c]) := by
    rw [h.pos_eq, byteLen_append]; simp [byteLen]
  rw [peek_next, hc]
  show charAt r.input (r.curr_pos + c.utf8Size) = rest₁.head?
  rw [h.input_eq, this]
  have : done ++ c :: rest₁ = (done ++ [c]) ++ rest₁ := by simp
  rw [this]
  exact charAt_append_byteLen _ _

theorem advance_while_of_none {r : StringReader} {test : Char → Bool}
    (h : r.curr_char = none) : r.advance_while test = r := by
  rw [advance_while]
  split
  · simp_all
  · rfl

theorem advance_while_of_neg {r : StringReader} {test : Char → Bool} {c : Char}
    (h : r.curr_char = some c) (ht : test c = false) : r.advance_while test = r := by
  rw [advance_while]
  split
  · rename_i c' h'
    rw [h] at h'
    cases h'
    simp [ht]
  · rfl

theorem advance_while_of_pos {r : StringReader} {test : Char → Bool} {c : Char}
    (h : r.curr_char = some c) (ht : test c = true) :
    r.advance_while test = r.advance.advance_while test := by
  conv_lhs => rw [advance_while]
  split
  · rename_i c' h'
    rw [h] at h'
    cases h'
    simp [ht]
  · simp_all

theorem read_while_of_none {r : StringReader} {test : Char → Bool}
    (h : r.curr_char = none) : r.read_while test = ([], r) := by
  rw [read_while]
  split
  · simp_all
  · rfl

theorem read_while_of_neg {r : StringReader} {test : Char → Bool} {c : Char}
    (h : r.curr_char = some c) (ht : test c = false) : r.read_while test = ([], r) := by
  rw [read_while]
  split
  · rename_i c' h'
    rw [h] at h'
    cases h'
    simp [ht]
  · rfl

theorem read_while_of_pos {r : StringReader} {test : Char → Bool} {c : Char}
    (h : r.curr_char = some c) (ht : test c = true) :
    r.read_while test =
      ((c :: (r.advance.read_while test).1, (r.advance.read_while test).2)) := by
  conv_lhs => rw [read_while]
  split
  · rename_i c' h'
    rw [h] at h'
    cases h'
    simp [ht]
  · simp_all

theorem read_line_of_none {r : StringReader} (h : r.curr_char = none) :
    r.read_line = ([], r.advance) := by
  rw [read_line]
  split
  · rfl
  · rename_i c' h'
    rw [h] at h'
    cases h'

theorem read_line_of_eol {r : StringReader} (h : r.curr_char = some '\n') :
    r.read_line = ([], r.advance) := by
  rw [read_line]
  split
  · rfl
  · rename_i c' h'
    rw [h] at h'
    cases h'
    simp

theorem read_line_of_pos {r : StringReader} {c : Char}
    (h : r.curr_char = some c) (hc : ¬ c = '\n') :
    r.read_line = ((c :: r.advance.read_line.1, r.advance.read_line.2)) := by
  conv_lhs => rw [read_line]
  split
  · simp_all
  · rename_i c' h'
    rw [h] at h'
    cases h'
    simp [hc]

theorem fuelLeft_advance_lt {r : StringReader} {c : Char} (h : r.curr_char = some c) :
    fuelLeft r.advance < fuelLeft r := by
  have hd : 0 < c.utf8Size := Char.utf8Size_pos c
  by_cases hle : byteLen r.input ≤ r.curr_pos + c.utf8Size
  · have h2 : charAt r.input (r.curr_pos + c.utf8Size) = none := charAt_none_of_le _ _ hle
    simp [fuelLeft, advance, h, h2]
    omega
  · have hb : ∀ (o : Option Char), (if o.isSome then 1 else 0) ≤ 1 := by
      intro o; split <;> omega
    have h3 := hb (charAt r.input (r.curr_pos + c.utf8Size))
    simp [fuelLeft, advance, h]
    omega

/-- Strong-induction principle matching the reader loops: to prove a
property of every reader state it suffices to prove it assuming it
already holds after one `advance` (whenever a character is loaded). -/
theorem reader_rec (P : StringReader → Prop)
    (step : ∀ r : StringReader, (∀ c : Char, r.curr_char = some c → P r.advance) → P r) :
    ∀ r, P r := by
  intro r
  generalize hn : fuelLeft r = n
  induction n using Nat.strong_induction_on generalizing r with
  | _ n ih =>
    exact step r (fun c hc => ih _ (hn ▸ fuelLeft_advance_lt hc) _ rfl)

theorem advanceWhileFuel_eq :
    ∀ (n : Nat) (r : StringReader) (test : Char → Bool), fuelLeft r ≤ n →
    advanceWhileFuel n r test = r.advance_while test := by
  intro n
  induction n with
  | zero =>
    intro r test hn
    cases hc : r.curr_char with
    | none =>
      rw [advance_while_of_none hc]
      rfl
    | some c =>
      exfalso
      have h1 : fuelLeft r = byteLen r.input - r.curr_pos + 1 := by
        simp [fuelLeft, hc]
      omega
  | succ n ih =>
    intro r test hn
    cases hc : r.curr_char with
    | none =>
      rw [advance_while_of_none hc]
      simp [advanceWhileFuel, hc]
    | some c =>
      cases ht : test c with
      | false =>
        rw [advance_while_of_neg hc ht]
        simp [advanceWhileFuel, hc, ht]
      | true =>
        have hlt := fuelLeft_advance_lt hc
        rw [advance_while_of_pos hc ht, ← ih r.advance test (by omega)]
        simp [advanceWhileFuel, hc, ht]

theorem readLineFuel_eq :
    ∀ (n : Nat) (r : StringReader), fuelLeft r ≤ n → readLineFuel n r = r.read_line := by
  intro n
  induction n with
  | zero =>
    intro r hn
    cases hc : r.curr_char with
    | none =>
      rw [read_line_of_none hc]
      rfl
    | some c =>
      exfalso
      have h1 : fuelLeft r = byteLen r.input - r.curr_pos + 1 := by
        simp [fuelLeft, hc]
      omega
  | succ n ih =>
    intro r hn
    cases hc : r.curr_char with
    | none =>
      rw [read_line_of_none hc]
      simp [readLineFuel, hc]
    | some c =>
      by_cases he : c = '\n'
      · subst he
        rw [read_line_of_eol hc]
        simp [readLineFuel, hc]
      · have hlt := fuelLeft_advance_lt hc
        rw [read_line_of_pos hc he, ← ih r.advance (by omega)]
        simp [readLineFuel, hc, he]

theorem readWhileFuel_eq :
    ∀ (n : Nat) (r : StringReader) (test : Char → Bool), fuelLeft r ≤ n →
    readWhileFuel n r test = r.read_while test := by
  intro n
  induction n with
  | zero =>
    intro r test hn
    cases hc : r.curr_char with
    | none =>
      rw [read_while_of_none hc]
      rfl
    | some c =>
      exfalso
      have h1 : fuelLeft r = byteLen r.input - r.curr_pos + 1 := by
        simp [fuelLeft, hc]
      omega
  | succ n ih =>
    intro r test hn
    cases hc : r.curr_char with
    | none =>
      rw [read_while_of_none hc]
      simp [readWhileFuel, hc]
    | some c =>
      cases ht : test c with
      | false =>
        rw [read_while_of_neg hc ht]
        simp [readWhileFuel, hc, ht]
      | true =>
        have hlt := fuelLeft_advance_lt hc
        rw [read_while_of_pos hc ht, ← ih r.advance test (by omega)]
        simp [readWhileFuel, hc, ht]

theorem advance_prev_eq (r : StringReader) : r.advance.prev_pos = r.curr_pos := by
  cases h : r.curr_char <;> simp [advance, h]

theorem advance_curr_le (r : StringReader) : r.curr_pos ≤ r.advance.curr_pos := by
  cases h : r.curr_char with
  | none => simp [advance, h]
  | some c => simp [advance, h]

theorem advance_while_curr_le (test : Char → Bool) :
    ∀ r : StringReader, r.curr_pos ≤ (r.advance_while test).curr_pos := by
  refine reader_rec _ (fun r ih => ?_)
  cases hc : r.curr_char with
  | none => rw [advance_while_of_none hc]
  | some c =>
    cases ht : test c with
    | false => rw [advance_while_of_neg hc ht]
    | true =>
      rw [advance_while_of_pos hc ht]
      exact le_trans (advance_curr_le r) (ih c hc)

theorem read_while_curr_le (test : Char → Bool) :
    ∀ r : StringReader, r.curr_pos ≤ (r.read_while test).2.curr_pos := by
  refine reader_rec _ (fun r ih => ?_)
  cases hc : r.curr_char with
  | none => rw [read_while_of_none hc]
  | some c =>
    cases ht : test c with
    | false => rw [read_while_of_neg hc ht]
    | true =>
      rw [read_while_of_pos hc ht]
      exact le_trans (advance_curr_le r) (ih c hc)

theorem read_line_curr_le :
    ∀ r : StringReader, r.curr_pos ≤ r.read_line.2.curr_pos := by
  refine reader_rec _ (fun r ih => ?_)
  cases hc : r.curr_char with
  | none =>
    rw [read_line_of_none hc]
    exact advance_curr_le r
  | some c =>
    by_cases he : c = '\n'
    · subst he
      rw [read_line_of_eol hc]
      exact advance_curr_le r
    · rw [read_line_of_pos hc he]
      exact le_trans (advance_curr_le r) (ih c hc)

theorem advance_bytes_curr_le (r : StringReader) (n : Nat) :
    r.curr_pos ≤ (r.advance_bytes n).curr_pos := by
  simp [advance_bytes]

/-- `advance_while` on an aligned state: it consumes exactly the maximal
prefix of `rest` satisfying the test, and afterwards `prev_pos` is the
starting offset of the last consumed character (unchanged when nothing
was consumed). -/
theorem aligned_advance_while :
    ∀ (rest done : List Char) (r : StringReader) (test : Char → Bool),
    Aligned r done rest →
    Aligned (r.advance_while test) (done ++ rest.takeWhile test) (rest.dropWhile test) ∧
      (r.advance_while test).prev_pos =
        (if rest.takeWhile test = [] then r.prev_pos
         else byteLen done + byteLen (rest.takeWhile test).dropLast) := by
  intro rest
  induction rest with
  | nil =>
    intro done r test h
    have hc : r.curr_char = none := by simpa using h.curr_eq
    rw [advance_while_of_none hc]
    constructor
    · simpa using h
    · simp
  | cons c rest₁ ih =>
    intro done r test h
    have hc : r.curr_char = some c := aligned_curr h
    cases ht : test c with
    | false =>
      rw [advance_while_of_neg hc ht,
        List.takeWhile_cons_of_neg (by simp [ht]), List.dropWhile_cons_of_neg (by simp [ht])]
      constructor
      · simpa using h
      · simp
    | true =>
      rw [advance_while_of_pos hc ht,
        List.takeWhile_cons_of_pos ht, List.dropWhile_cons_of_pos ht]
      obtain ⟨h', hprev, -⟩ := aligned_advance h
      obtain ⟨ha, hp⟩ := ih (done ++ [c]) r.advance test h'
      constructor
      · simpa [List.append_assoc] using ha
      · rw [hp]
        cases htw : rest₁.takeWhile test with
        | nil => simp [hprev, byteLen]
        | cons d ds =>
          rw [if_neg (by simp), if_neg (by simp), List.dropLast_cons₂]
          simp only [byteLen_append, byteLen]
          omega

/-- `read_while` on an aligned state returns the maximal satisfying
prefix of `rest` and leaves the reader exactly as `advance_while` does. -/
theorem aligned_read_while :
    ∀ (rest done : List Char) (r : StringReader) (test : Char → Bool),
    Aligned r done rest →
    (r.read_while test).1 = rest.takeWhile test ∧
      (r.read_while test).2 = r.advance_while test := by
  intro rest
  induction rest with
  | nil =>
    intro done r test h
    have hc : r.curr_char = none := by simpa using h.curr_eq
    rw [read_while_of_none hc, advance_while_of_none hc]
    simp
  | cons c rest₁ ih =>
    intro done r test h
    have hc : r.curr_char = some c := aligned_curr h
    cases ht : test c with
    | false =>
      rw [read_while_of_neg hc ht, advance_while_of_neg hc ht,
        List.takeWhile_cons_of_neg (by simp [ht])]
      simp
    | true =>
      rw [read_while_of_pos hc ht, advance_while_of_pos hc ht,
        List.takeWhile_cons_of_pos ht]
      obtain ⟨h', -, -⟩ := aligned_advance h
      obtain ⟨h1, h2⟩ := ih (done ++ [c]) r.advance test h'
      simp [h1, h2]

/-- `read_line` on an aligned state: it returns the text up to (and
excluding) the first `'\n'` of `rest` (or all of `rest`), and consumes
the terminator when there is one.  In the terminator case the final
`prev_pos` is the terminator's own byte offset; at end of input it is
the input's byte length. -/
theorem aligned_read_line :
    ∀ (rest done : List Char) (r : StringReader),
    Aligned r done rest →
    (r.read_line).1 = rest.takeWhile (fun c => !(c == '\n')) ∧
      ((rest.dropWhile (fun c => !(c == '\n')) = [] ∧
          Aligned (r.read_line).2 (done ++ rest.takeWhile (fun c => !(c == '\n'))) [] ∧
          (r.read_line).2.prev_pos =
            byteLen done + byteLen (rest.takeWhile (fun c => !(c == '\n'))) ∧
          (r.read_line).2.curr_pos =
            byteLen done + byteLen (rest.takeWhile (fun c => !(c == '\n')))) ∨
        (∃ rest₃, rest.dropWhile (fun c => !(c == '\n')) = '\n' :: rest₃ ∧
          Aligned (r.read_line).2 (done ++ rest.takeWhile (fun c => !(c == '\n')) ++ ['\n']) rest₃ ∧
          (r.read_line).2.prev_pos =
            byteLen done + byteLen (rest.takeWhile (fun c => !(c == '\n'))))) := by
  intro rest
  induction rest with
  | nil =>
    intro done r h
    have hc : r.curr_char = none := by simpa using h.curr_eq
    rw [read_line_of_none hc]
    obtain ⟨heq, ha⟩ := aligned_advance_eof h
    refine ⟨rfl, Or.inl ⟨rfl, by simpa using ha, ?_, ?_⟩⟩
    · rw [heq]
      simpa [byteLen] using h.pos_eq
    · rw [heq]
      simpa [byteLen] using h.pos_eq
  | cons c rest₁ ih =>
    intro done r h
    have hc : r.curr_char = some c := aligned_curr h
    by_cases he : c = '\n'
    · subst he
      rw [read_line_of_eol hc]
      obtain ⟨h', hprev, _⟩ := aligned_advance h
      refine ⟨by simp, Or.inr ⟨rest₁, by simp, by simpa using h', by simpa [byteLen] using hprev⟩⟩
    · rw [read_line_of_pos hc he]
      obtain ⟨h', hprev, _⟩ := aligned_advance h
      obtain ⟨h1, h2⟩ := ih (done ++ [c]) r.advance h'
      have htwc : (c :: rest₁).takeWhile (fun c => !(c == '\n')) =
          c :: rest₁.takeWhile (fun c => !(c == '\n')) := by
        simp [List.takeWhile_cons, he]
      have hdwc : (c :: rest₁).dropWhile (fun c => !(c == '\n')) =
          rest₁.dropWhile (fun c => !(c == '\n')) := by
        simp [List.dropWhile_cons, he]
      refine ⟨by rw [htwc, ← h1], ?_⟩
      rcases h2 with ⟨hd, ha, hp, hq⟩ | ⟨rest₃, hd, ha, hp⟩
      · refine Or.inl ⟨by rw [hdwc, hd], ?_, ?_, ?_⟩
        · rw [htwc]
          simpa [List.append_assoc] using ha
        · rw [htwc, hp, byteLen_append, byteLen_cons]
          simp [byteLen]
          omega
        · rw [htwc, hq, byteLen_append, byteLen_cons]
          simp [byteLen]
          omega
      · refine Or.inr ⟨rest₃, by rw [hdwc, hd], ?_, ?_⟩
        · rw [htwc]
          simpa [List.append_assoc] using ha
        · rw [htwc, hp, byteLen_append, byteLen_cons]
          simp [byteLen]
          omega

end StringReader

theorem char_eq_of_toNat {c : Char} {n : Nat} (h : c.toNat = n) (d : Char)
    (hd : d.toNat = n) : c = d := by
  have h1 := Char.ofNat_toNat c
  have h2 := Char.ofNat_toNat d
  rw [h] at h1
  rw [hd] at h2
  rw [← h1, ← h2]

theorem is_single_byte_op_char_cases {c : Char} (h : is_single_byte_op_char c = true) :
    c = '+' ∨ c = '-' ∨ c = '*' ∨ c = '/' ∨ c = '%' ∨ c = '=' ∨ c = '<' ∨ c = '>' := by
  simp only [is_single_byte_op_char, Bool.or_eq_true, beq_iff_eq] at h
  rcases h with ((((((h | h) | h) | h) | h) | h) | h) | h
  · exact Or.inl (char_eq_of_toNat h '+' (by decide))
  · exact Or.inr (Or.inl (char_eq_of_toNat h '-' (by decide)))
  · exact Or.inr (Or.inr (Or.inl (char_eq_of_toNat h '*' (by decide))))
  · exact Or.inr (Or.inr (Or.inr (Or.inl (char_eq_of_toNat h '/' (by decide)))))
  · exact Or.inr (Or.inr (Or.inr (Or.inr (Or.inl (char_eq_of_toNat h '%' (by decide))))))
  · exact Or.inr (Or.inr (Or.inr (Or.inr (Or.inr (Or.inl
      (char_eq_of_toNat h '=' (by decide)))))))
  · exact Or.inr (Or.inr (Or.inr (Or.inr (Or.inr (Or.inr (Or.inl
      (char_eq_of_toNat h '<' (by decide))))))))
  · exact Or.inr (Or.inr (Or.inr (Or.inr (Or.inr (Or.inr (Or.inr
      (char_eq_of_toNat h '>' (by decide))))))))

theorem is_multi_byte_op_start_cases {c : Char} (h : is_multi_byte_op_start c = true) :
    c = '!' ∨ c = '<' ∨ c = '>' := by
  simp only [is_multi_byte_op_start, Bool.or_eq_true, beq_iff_eq] at h
  rcases h with (h | h) | h
  · exact Or.inl (char_eq_of_toNat h '!' (by decide))
  · exact Or.inr (Or.inl (char_eq_of_toNat h '<' (by decide)))
  · exact Or.inr (Or.inr (char_eq_of_toNat h '>' (by decide)))

theorem is_multi_byte_op_cont_cases {c : Char} (h : is_multi_byte_op_cont c = true) :
    c = '=' ∨ c = '>' := by
  simp only [is_multi_byte_op_cont, Bool.or_eq_true, beq_iff_eq] at h
  rcases h with h | h
  · exact Or.inl (char_eq_of_toNat h '=' (by decide))
  · exact Or.inr (char_eq_of_toNat h '>' (by decide))

theorem ident_start_cont {c : Char} (h : is_ident_start c = true) :
    is_ident_cont c = true := by
  simp [is_ident_start] at h
  simp [is_ident_cont]
  omega

namespace Lexer

theorem aligned_lexer_new (input : List Char) : Aligned (Lexer.new input).reader [] input :=
  StringReader.aligned_new input

theorem scan_eof_of_some {l : Lexer} {c : Char} (h : l.reader.curr_char = some c) :
    scan_eof l = none := by
  simp [scan_eof, StringReader.is_eof, h]

theorem scan_eof_of_none {l : Lexer} (h : l.reader.curr_char = none) :
    scan_eof l = some (LexedToken.new_at Token.Eof l.reader.prev_pos, l) := by
  simp [scan_eof, StringReader.is_eof, h]

theorem scan_whitespace_of_neg {l : Lexer} {c : Char} (h : l.reader.curr_char = some c)
    (hw : rustIsWhitespace c = false) : scan_whitespace l = none := by
  simp [scan_whitespace, h, hw]

theorem aligned_scan_whitespace {l : Lexer} {done : List Char} {c : Char} {rest₁ : List Char}
    (h : Aligned l.reader done (c :: rest₁)) (hw : rustIsWhitespace c = true) :
    scan_whitespace l = some
      (LexedToken.new Token.Whitespace (byteLen done)
        (byteLen done + byteLen ((c :: rest₁).takeWhile rustIsWhitespace).dropLast),
       ⟨l.reader.advance_while rustIsWhitespace⟩) ∧
    Aligned (l.reader.advance_while rustIsWhitespace)
      (done ++ (c :: rest₁).takeWhile rustIsWhitespace)
      ((c :: rest₁).dropWhile rustIsWhitespace) := by
  have hc : l.reader.curr_char = some c := StringReader.aligned_curr h
  obtain ⟨ha, hp⟩ :=
    StringReader.aligned_advance_while (c :: rest₁) done l.reader rustIsWhitespace h
  have htw : (c :: rest₁).takeWhile rustIsWhitespace = c :: rest₁.takeWhile rustIsWhitespace :=
    List.takeWhile_cons_of_pos hw
  have hprev : (l.reader.advance_while rustIsWhitespace).prev_pos =
      byteLen done + byteLen ((c :: rest₁).takeWhile rustIsWhitespace).dropLast := by
    rw [hp, if_neg (by simp [htw])]
  refine ⟨?_, ha⟩
  simp [scan_whitespace, hc, hw, hprev, h.pos_eq, LexedToken.new, Span.new]

theorem scan_comment_of_false {l : Lexer}
    (h : (l.reader.curr_is '-' && l.reader.next_is '-') = false) : scan_comment l = none := by
  simp only [scan_comment, h]
  rfl

theorem aligned_scan_comment {l : Lexer} {done rest₂ : List Char}
    (h : Aligned l.reader done ('-' :: '-' :: rest₂)) :
    scan_comment l = some
      (LexedToken.new (Token.Comment (rest₂.takeWhile (fun c => !(c == '\n'))))
        (byteLen done)
        (byteLen done + 2 + byteLen (rest₂.takeWhile (fun c => !(c == '\n')))),
       ⟨(l.reader.advance.advance.read_line).2⟩) ∧
    ((rest₂.dropWhile (fun c => !(c == '\n')) = [] ∧
       Aligned (l.reader.advance.advance.read_line).2
         (done ++ '-' :: '-' :: rest₂.takeWhile (fun c => !(c == '\n'))) [] ∧
       (l.reader.advance.advance.read_line).2.curr_pos =
         byteLen done + 2 + byteLen (rest₂.takeWhile (fun c => !(c == '\n')))) ∨
     (∃ rest₃, rest₂.dropWhile (fun c => !(c == '\n')) = '\n' :: rest₃ ∧
       Aligned (l.reader.advance.advance.read_line).2
         ((done ++ '-' :: '-' :: rest₂.takeWhile (fun c => !(c == '\n'))) ++ ['\n']) rest₃)) := by
  have hc : l.reader.curr_char = some '-' := StringReader.aligned_curr h
  have hpk : l.reader.peek_next = some '-' := by
    rw [StringReader.aligned_peek h]
    rfl
  have hguard : (l.reader.curr_is '-' && l.reader.next_is '-') = true := by
    simp [StringReader.curr_is, StringReader.next_is, hc, hpk]
  obtain ⟨h1, hp1, -⟩ := StringReader.aligned_advance h
  obtain ⟨h2, hp2, -⟩ := StringReader.aligned_advance h1
  have hsz : ('-' : Char).utf8Size = 1 := by decide
  have hbl2 : byteLen ((done ++ ['-']) ++ ['-']) = byteLen done + 2 := by
    simp [byteLen_append, byteLen, hsz]
  obtain ⟨hl1, hcase⟩ :=
    StringReader.aligned_read_line rest₂ ((done ++ ['-']) ++ ['-']) l.reader.advance.advance h2
  have hprev : (l.reader.advance.advance.read_line).2.prev_pos =
      byteLen done + 2 + byteLen (rest₂.takeWhile (fun c => !(c == '\n'))) := by
    rcases hcase with ⟨-, -, hp, -⟩ | ⟨rest₃, -, -, hp⟩ <;> rw [hp, hbl2]
  constructor
  · simp [scan_comment, hguard, hl1, hprev, h.pos_eq, LexedToken.new, Span.new]
  · rcases hcase with ⟨hd, ha, -, hq⟩ | ⟨rest₃, hd, ha, -⟩
    · refine Or.inl ⟨hd, ?_, by rw [hq, hbl2]⟩
      simpa [List.append_assoc] using ha
    · refine Or.inr ⟨rest₃, hd, ?_⟩
      simpa [List.append_assoc] using ha

theorem scan_single_of_op {l : Lexer} {c : Char} {op : Op}
    (hc : l.reader.curr_char = some c) (hs : is_single_byte_op_char c = true)
    (hop : Op.from_str [c] = some op) :
    scan_single_byte_operator l =
      some (LexedToken.new_at (Token.Op op) l.reader.curr_pos, ⟨l.reader.advance⟩) := by
  simp [scan_single_byte_operator, hc, hs, hop]

theorem scan_single_of_neg {l : Lexer} {c : Char}
    (hc : l.reader.curr_char = some c) (hs : is_single_byte_op_char c = false) :
    scan_single_byte_operator l = none := by
  simp [scan_single_byte_operator, hc, hs]

theorem scan_multi_of_notstart {l : Lexer} {c : Char}
    (hc : l.reader.curr_char = some c) (hm : is_multi_byte_op_start c = false) :
    scan_multi_byte_operator l = none := by
  simp [scan_multi_byte_operator, hc, hm]

theorem scan_multi_of_cont {l : Lexer} {c c₂ : Char} {op : Op}
    (hc : l.reader.curr_char = some c) (hm : is_multi_byte_op_start c = true)
    (hpk : l.reader.peek_next = some c₂) (hcont : is_multi_byte_op_cont c₂ = true)
    (hop : Op.from_str [c, c₂] = some op) :
    scan_multi_byte_operator l =
      some (LexedToken.new (Token.Op op) l.reader.curr_pos
        (l.reader.curr_pos + byteLen [c, c₂] - 1),
        ⟨l.reader.advance_bytes (byteLen [c, c₂])⟩) := by
  simp [scan_multi_byte_operator, hc, hm, hpk, hcont, hop]

theorem scan_multi_of_cont_fail {l : Lexer} {c c₂ : Char}
    (hc : l.reader.curr_char = some c) (hm : is_multi_byte_op_start c = true)
    (hpk : l.reader.peek_next = some c₂) (hcont : is_multi_byte_op_cont c₂ = true)
    (hop : Op.from_str [c, c₂] = none) :
    scan_multi_byte_operator l = none := by
  simp [scan_multi_byte_operator, hc, hm, hpk, hcont, hop]

theorem scan_multi_of_nocont {l : Lexer} {c : Char} {pn : Option Char} {op : Op}
    (hc : l.reader.curr_char = some c) (hm : is_multi_byte_op_start c = true)
    (hpk : l.reader.peek_next = pn)
    (hcont : is_multi_byte_op_cont (pn.getD (Char.ofNat 0)) = false)
    (hop : Op.from_str [c] = some op) :
    scan_multi_byte_operator l =
      some (LexedToken.new (Token.Op op) l.reader.curr_pos
        (l.reader.curr_pos + byteLen [c] - 1),
        ⟨l.reader.advance_bytes (byteLen [c])⟩) := by
  simp [scan_multi_byte_operator, hc, hm, hpk, hcont, hop]

theorem scan_multi_of_nocont_fail {l : Lexer} {c : Char} {pn : Option Char}
    (hc : l.reader.curr_char = some c) (hm : is_multi_byte_op_start c = true)
    (hpk : l.reader.peek_next = pn)
    (hcont : is_multi_byte_op_cont (pn.getD (Char.ofNat 0)) = false)
    (hop : Op.from_str [c] = none) :
    scan_multi_byte_operator l = none := by
  simp [scan_multi_byte_operator, hc, hm, hpk, hcont, hop]

theorem aligned_scan_ident {l : Lexer} {done : List Char} {c : Char} {rest₁ : List Char}
    (h : Aligned l.reader done (c :: rest₁)) (hid : is_ident_start c = true) :
    next_token_res l = some
      (LexedToken.new
        ((Keyword.from_str (((c :: rest₁).takeWhile is_ident_cont).map charToLowercase)).elim
          (Token.Ident (((c :: rest₁).takeWhile is_ident_cont).map charToLowercase))
          Token.Keyword)
        (byteLen done)
        (byteLen done + byteLen ((c :: rest₁).takeWhile is_ident_cont).dropLast),
       ⟨l.reader.advance_while is_ident_cont⟩) ∧
    Aligned (l.reader.advance_while is_ident_cont)
      (done ++ (c :: rest₁).takeWhile is_ident_cont)
      ((c :: rest₁).dropWhile is_ident_cont) := by
  have hc : l.reader.curr_char = some c := StringReader.aligned_curr h
  have hcont : is_ident_cont c = true := ident_start_cont hid
  obtain ⟨hrw1, hrw2⟩ :=
    StringReader.aligned_read_while (c :: rest₁) done l.reader is_ident_cont h
  obtain ⟨ha, hp⟩ :=
    StringReader.aligned_advance_while (c :: rest₁) done l.reader is_ident_cont h
  have htw : (c :: rest₁).takeWhile is_ident_cont = c :: rest₁.takeWhile is_ident_cont :=
    List.takeWhile_cons_of_pos hcont
  have hprev : (l.reader.advance_while is_ident_cont).prev_pos =
      byteLen done + byteLen ((c :: rest₁).takeWhile is_ident_cont).dropLast := by
    rw [hp, if_neg (by simp [htw])]
  refine ⟨?_, ha⟩
  cases hk : Keyword.from_str (((c :: rest₁).takeWhile is_ident_cont).map charToLowercase) with
  | none =>
    simp [next_token_res, hc, hid, scan_keyword_or_unquoted_identifier, hrw1, hrw2,
      hprev, h.pos_eq, hk, LexedToken.new, Span.new]
  | some k =>
    simp [next_token_res, hc, hid, scan_keyword_or_unquoted_identifier, hrw1, hrw2,
      hprev, h.pos_eq, hk, LexedToken.new, Span.new]

theorem pair_some_inj {α β : Type} {a t : α} {b l' : β}
    (h : some (a, b) = some (t, l')) : t = a ∧ l' = b := by
  have h' := Option.some.inj h
  exact ⟨(congrArg Prod.fst h').symm, (congrArg Prod.snd h').symm⟩

theorem bool_eq_false {b : Bool} (h : ¬ b = true) : b = false := by
  cases b
  · rfl
  · exact absurd rfl h

theorem step_op_one {l : Lexer} {done : List Char} {c : Char} {rest₁ : List Char}
    {t : LexedToken} {l' : Lexer} {op : Op}
    (h : Aligned l.reader done (c :: rest₁))
    (hnt : some ((LexedToken.new_at (Token.Op op) l.reader.curr_pos : LexedToken),
      (⟨l.reader.advance⟩ : Lexer)) = some (t, l')) :
    ∃ p rest', c :: rest₁ = p ++ rest' ∧ p ≠ [] ∧ t.token ≠ Token.Eof ∧
      Aligned l'.reader (done ++ p) rest' ∧
      t.span.start = byteLen done ∧
      byteLen done + byteLen p.dropLast ≤ t.span.«end» ∧
      (t.span.«end» < byteLen done + byteLen p ∨ rest' = []) := by
  obtain ⟨ht, hl⟩ := pair_some_inj hnt
  subst ht
  subst hl
  obtain ⟨ha, -, -⟩ := StringReader.aligned_advance h
  have hsz : 0 < c.utf8Size := Char.utf8Size_pos c
  refine ⟨[c], rest₁, rfl, by simp, by simp [LexedToken.new_at, LexedToken.new, Span.new], ha,
    ?_, ?_, ?_⟩
  · simp [LexedToken.new_at, LexedToken.new, Span.new, h.pos_eq]
  · simp [LexedToken.new_at, LexedToken.new, Span.new, h.pos_eq, byteLen]
  · left
    simp [LexedToken.new_at, LexedToken.new, Span.new, h.pos_eq, byteLen]
    omega

theorem step_op_one_multi {l : Lexer} {done : List Char} {c : Char} {rest₁ : List Char}
    {t : LexedToken} {l' : Lexer} {op : Op}
    (h : Aligned l.reader done (c :: rest₁))
    (hnt : some ((LexedToken.new (Token.Op op) l.reader.curr_pos
        (l.reader.curr_pos + byteLen [c] - 1) : LexedToken),
      (⟨l.reader.advance_bytes (byteLen [c])⟩ : Lexer)) = some (t, l')) :
    ∃ p rest', c :: rest₁ = p ++ rest' ∧ p ≠ [] ∧ t.token ≠ Token.Eof ∧
      Aligned l'.reader (done ++ p) rest' ∧
      t.span.start = byteLen done ∧
      byteLen done + byteLen p.dropLast ≤ t.span.«end» ∧
      (t.span.«end» < byteLen done + byteLen p ∨ rest' = []) := by
  obtain ⟨ht, hl⟩ := pair_some_inj hnt
  subst ht
  subst hl
  obtain ⟨ha, -, -⟩ :=
    StringReader.aligned_advance_bytes [c] rest₁ (by simpa using h)
  have hsz : 0 < c.utf8Size := Char.utf8Size_pos c
  refine ⟨[c], rest₁, rfl, by simp, by simp [LexedToken.new, Span.new], ha, ?_, ?_, ?_⟩
  · simp [LexedToken.new, Span.new, h.pos_eq]
  · simp [LexedToken.new, Span.new, h.pos_eq, byteLen]
    omega
  · left
    simp [LexedToken.new, Span.new, h.pos_eq, byteLen]
    omega

theorem step_op_two {l : Lexer} {done : List Char} {c c₂ : Char} {rest₂ : List Char}
    {t : LexedToken} {l' : Lexer} {op : Op}
    (h : Aligned l.reader done (c :: c₂ :: rest₂))
    (hnt : some ((LexedToken.new (Token.Op op) l.reader.curr_pos
        (l.reader.curr_pos + byteLen [c, c₂] - 1) : LexedToken),
      (⟨l.reader.advance_bytes (byteLen [c, c₂])⟩ : Lexer)) = some (t, l')) :
    ∃ p rest', c :: c₂ :: rest₂ = p ++ rest' ∧ p ≠ [] ∧ t.token ≠ Token.Eof ∧
      Aligned l'.reader (done ++ p) rest' ∧
      t.span.start = byteLen done ∧
      byteLen done + byteLen p.dropLast ≤ t.span.«end» ∧
      (t.span.«end» < byteLen done + byteLen p ∨ rest' = []) := by
  obtain ⟨ht, hl⟩ := pair_some_inj hnt
  subst ht
  subst hl
  obtain ⟨ha, -, -⟩ :=
    StringReader.aligned_advance_bytes [c, c₂] rest₂ (by simpa using h)
  have hsz : 0 < c.utf8Size := Char.utf8Size_pos c
  have hsz₂ : 0 < c₂.utf8Size := Char.utf8Size_pos c₂
  refine ⟨[c, c₂], rest₂, rfl, by simp, by simp [LexedToken.new, Span.new], ha, ?_, ?_, ?_⟩
  · simp [LexedToken.new, Span.new, h.pos_eq]
  · simp [LexedToken.new, Span.new, h.pos_eq, byteLen]
    omega
  · left
    simp [LexedToken.new, Span.new, h.pos_eq, byteLen]
    omega

theorem op_one_tight {l : Lexer} {done : List Char} {c : Char} {rest₁ : List Char}
    {t : LexedToken} {l' : Lexer} {op : Op}
    (h : Aligned l.reader done (c :: rest₁)) (hsz : c.utf8Size = 1)
    (hnt : some ((LexedToken.new_at (Token.Op op) l.reader.curr_pos : LexedToken),
      (⟨l.reader.advance⟩ : Lexer)) = some (t, l')) :
    ∃ op' len, (len = 1 ∨ len = 2) ∧ t.token = Token.Op op' ∧
      t.span.start = l.reader.curr_pos ∧
      t.span.«end» + 1 = l.reader.curr_pos + len ∧
      l'.reader.curr_pos = l.reader.curr_pos + len ∧
      Aligned l'.reader (done ++ (c :: rest₁).take len) ((c :: rest₁).drop len) := by
  obtain ⟨ht, hl⟩ := pair_some_inj hnt
  subst ht
  subst hl
  obtain ⟨ha, -, hcp⟩ := StringReader.aligned_advance h
  refine ⟨op, 1, Or.inl rfl, rfl, rfl,
    by simp [LexedToken.new_at, LexedToken.new, Span.new], ?_, by simpa using ha⟩
  show l.reader.advance.curr_pos = l.reader.curr_pos + 1
  rw [hcp, h.pos_eq, hsz]

theorem op_one_multi_tight {l : Lexer} {done : List Char} {c : Char} {rest₁ : List Char}
    {t : LexedToken} {l' : Lexer} {op : Op}
    (h : Aligned l.reader done (c :: rest₁)) (hsz : c.utf8Size = 1)
    (hnt : some ((LexedToken.new (Token.Op op) l.reader.curr_pos
        (l.reader.curr_pos + byteLen [c] - 1) : LexedToken),
      (⟨l.reader.advance_bytes (byteLen [c])⟩ : Lexer)) = some (t, l')) :
    ∃ op' len, (len = 1 ∨ len = 2) ∧ t.token = Token.Op op' ∧
      t.span.start = l.reader.curr_pos ∧
      t.span.«end» + 1 = l.reader.curr_pos + len ∧
      l'.reader.curr_pos = l.reader.curr_pos + len ∧
      Aligned l'.reader (done ++ (c :: rest₁).take len) ((c :: rest₁).drop len) := by
  obtain ⟨ht, hl⟩ := pair_some_inj hnt
  subst ht
  subst hl
  obtain ⟨ha, -, hcp⟩ := StringReader.aligned_advance_bytes [c] rest₁ (by simpa using h)
  have hbl : byteLen [c] = 1 := by simp [byteLen, hsz]
  refine ⟨op, 1, Or.inl rfl, rfl, rfl, ?_, ?_, by simpa using ha⟩
  · simp [LexedToken.new, Span.new, hbl]
  · show (l.reader.advance_bytes (byteLen [c])).curr_pos = l.reader.curr_pos + 1
    rw [hcp, h.pos_eq, hbl]

theorem op_two_tight {l : Lexer} {done : List Char} {c c₂ : Char} {rest₂ : List Char}
    {t : LexedToken} {l' : Lexer} {op : Op}
    (h : Aligned l.reader done (c :: c₂ :: rest₂)) (hsz : c.utf8Size = 1)
    (hsz₂ : c₂.utf8Size = 1)
    (hnt : some ((LexedToken.new (Token.Op op) l.reader.curr_pos
        (l.reader.curr_pos + byteLen [c, c₂] - 1) : LexedToken),
      (⟨l.reader.advance_bytes (byteLen [c, c₂])⟩ : Lexer)) = some (t, l')) :
    ∃ op' len, (len = 1 ∨ len = 2) ∧ t.token = Token.Op op' ∧
      t.span.start = l.reader.curr_pos ∧
      t.span.«end» + 1 = l.reader.curr_pos + len ∧
      l'.reader.curr_pos = l.reader.curr_pos + len ∧
      Aligned l'.reader (done ++ (c :: c₂ :: rest₂).take len) ((c :: c₂ :: rest₂).drop len) := by
  obtain ⟨ht, hl⟩ := pair_some_inj hnt
  subst ht
  subst hl
  obtain ⟨ha, -, hcp⟩ := StringReader.aligned_advance_bytes [c, c₂] rest₂ (by simpa using h)
  have hbl : byteLen [c, c₂] = 2 := by simp [byteLen, hsz, hsz₂]
  refine ⟨op, 2, Or.inr rfl, rfl, rfl, ?_, ?_, by simpa using ha⟩
  · simp [LexedToken.new, Span.new, hbl]
  · show (l.reader.advance_bytes (byteLen [c, c₂])).curr_pos = l.reader.curr_pos + 2
    rw [hcp, h.pos_eq, hbl]

/-- On an aligned state, a successful operator scan emits an `Op` token
whose span starts at the cursor, has width exactly the matched length
(1 or 2 bytes), and the cursor advances by exactly that length, leaving
the state aligned just past the consumed characters. -/
theorem aligned_scan_operator_tight {l : Lexer} {done : List Char} {c : Char}
    {rest₁ : List Char} {t : LexedToken} {l' : Lexer}
    (h : Aligned l.reader done (c :: rest₁))
    (hs : scan_operator l = some (t, l')) :
    ∃ op len, (len = 1 ∨ len = 2) ∧ t.token = Token.Op op ∧
      t.span.start = l.reader.curr_pos ∧
      t.span.«end» + 1 = l.reader.curr_pos + len ∧
      l'.reader.curr_pos = l.reader.curr_pos + len ∧
      Aligned l'.reader (done ++ (c :: rest₁).take len) ((c :: rest₁).drop len) := by
  have hc : l.reader.curr_char = some c := StringReader.aligned_curr h
  by_cases hm : is_multi_byte_op_start c = true
  · rcases is_multi_byte_op_start_cases hm with hc1 | hc1 | hc1
    · subst hc1
      cases rest₁ with
      | nil =>
        have hpk : l.reader.peek_next = none := by
          rw [StringReader.aligned_peek h]
          rfl
        simp [scan_operator,
            scan_multi_of_nocont_fail hc (by decide) hpk (by decide) (by decide),
            scan_single_of_neg hc (by decide)] at hs
      | cons c₂ rest₂ =>
        have hpk : l.reader.peek_next = some c₂ := by
          rw [StringReader.aligned_peek h]
          rfl
        by_cases hcont : is_multi_byte_op_cont c₂ = true
        · rcases is_multi_byte_op_cont_cases hcont with hc2 | hc2
          · subst hc2
            simp only [scan_operator, scan_multi_of_cont hc (by decide) hpk (by decide)
                (by decide : Op.from_str ['!', '='] = some Op.NotEq)] at hs
            exact op_two_tight h (by decide) (by decide) hs
          · subst hc2
            simp [scan_operator,
                scan_multi_of_cont_fail hc (by decide) hpk (by decide) (by decide),
                scan_single_of_neg hc (by decide)] at hs
        · have hcf : is_multi_byte_op_cont c₂ = false := bool_eq_false hcont
          simp [scan_operator, scan_multi_of_nocont_fail hc (by decide) hpk
                (by simpa using hcf) (by decide),
              scan_single_of_neg hc (by decide)] at hs
    · subst hc1
      cases rest₁ with
      | nil =>
        have hpk : l.reader.peek_next = none := by
          rw [StringReader.aligned_peek h]
          rfl
        simp only [scan_operator, scan_multi_of_nocont hc (by decide) hpk (by decide)
            (by decide : Op.from_str ['<'] = some Op.Lt)] at hs
        exact op_one_multi_tight h (by decide) hs
      | cons c₂ rest₂ =>
        have hpk : l.reader.peek_next = some c₂ := by
          rw [StringReader.aligned_peek h]
          rfl
        by_cases hcont : is_multi_byte_op_cont c₂ = true
        · rcases is_multi_byte_op_cont_cases hcont with hc2 | hc2
          · subst hc2
            simp only [scan_operator, scan_multi_of_cont hc (by decide) hpk (by decide)
                (by decide : Op.from_str ['<', '='] = some Op.LtEq)] at hs
            exact op_two_tight h (by decide) (by decide) hs
          · subst hc2
            simp only [scan_operator, scan_multi_of_cont hc (by decide) hpk (by decide)
                (by decide : Op.from_str ['<', '>'] = some Op.NotEq)] at hs
            exact op_two_tight h (by decide) (by decide) hs
        · have hcf : is_multi_byte_op_cont c₂ = false := bool_eq_false hcont
          simp only [scan_operator, scan_multi_of_nocont hc (by decide) hpk
              (by simpa using hcf) (by decide : Op.from_str ['<'] = some Op.Lt)] at hs
          exact op_one_multi_tight h (by decide) hs
    · subst hc1
      cases rest₁ with
      | nil =>
        have hpk : l.reader.peek_next = none := by
          rw [StringReader.aligned_peek h]
          rfl
        simp only [scan_operator, scan_multi_of_nocont hc (by decide) hpk (by decide)
            (by decide : Op.from_str ['>'] = some Op.Gt)] at hs
        exact op_one_multi_tight h (by decide) hs
      | cons c₂ rest₂ =>
        have hpk : l.reader.peek_next = some c₂ := by
          rw [StringReader.aligned_peek h]
          rfl
        by_cases hcont : is_multi_byte_op_cont c₂ = true
        · rcases is_multi_byte_op_cont_cases hcont with hc2 | hc2
          · subst hc2
            simp only [scan_operator, scan_multi_of_cont hc (by decide) hpk (by decide)
                (by decide : Op.from_str ['>', '='] = some Op.GtEq)] at hs
            exact op_two_tight h (by decide) (by decide) hs
          · subst hc2
            simp only [scan_operator,
                scan_multi_of_cont_fail hc (by decide) hpk (by decide) (by decide),
                scan_single_of_op hc (by decide)
                  (by decide : Op.from_str ['>'] = some Op.Gt)] at hs
            exact op_one_tight h (by decide) hs
        · have hcf : is_multi_byte_op_cont c₂ = false := bool_eq_false hcont
          simp only [scan_operator, scan_multi_of_nocont hc (by decide) hpk
              (by simpa using hcf) (by decide : Op.from_str ['>'] = some Op.Gt)] at hs
          exact op_one_multi_tight h (by decide) hs
  · have hmf : is_multi_byte_op_start c = false := bool_eq_false hm
    by_cases hss : is_single_byte_op_char c = true
    · rcases is_single_byte_op_char_cases hss with hc1 | hc1 | hc1 | hc1 | hc1 | hc1 | hc1 | hc1 <;>
        subst hc1
      · simp only [scan_operator, scan_multi_of_notstart hc (by decide),
            scan_single_of_op hc (by decide)
              (by decide : Op.from_str ['+'] = some Op.Plus)] at hs
        exact op_one_tight h (by decide) hs
      · simp only [scan_operator, scan_multi_of_notstart hc (by decide),
            scan_single_of_op hc (by decide)
              (by decide : Op.from_str ['-'] = some Op.Minus)] at hs
        exact op_one_tight h (by decide) hs
      · simp only [scan_operator, scan_multi_of_notstart hc (by decide),
            scan_single_of_op hc (by decide)
              (by decide : Op.from_str ['*'] = some Op.Star)] at hs
        exact op_one_tight h (by decide) hs
      · simp only [scan_operator, scan_multi_of_notstart hc (by decide),
            scan_single_of_op hc (by decide)
              (by decide : Op.from_str ['/'] = some Op.Slash)] at hs
        exact op_one_tight h (by decide) hs
      · simp only [scan_operator, scan_multi_of_notstart hc (by decide),
            scan_single_of_op hc (by decide)
              (by decide : Op.from_str ['%'] = some Op.Percent)] at hs
        exact op_one_tight h (by decide) hs
      · simp only [scan_operator, scan_multi_of_notstart hc (by decide),
            scan_single_of_op hc (by decide)
              (by decide : Op.from_str ['='] = some Op.Eq)] at hs
        exact op_one_tight h (by decide) hs
      · exact absurd hmf (by decide)
      · exact absurd hmf (by decide)
    · have hsf : is_single_byte_op_char c = false := bool_eq_false hss
      simp [scan_operator, scan_multi_of_notstart hc hmf,
          scan_single_of_neg hc hsf] at hs

/-- Behaviour of `next_token` once the end-of-input, whitespace and
comment scans have all declined: the operator scans, then the
keyword/identifier fallback, then the `unimplemented!()` panic. -/
theorem step_from_operator {l : Lexer} {done : List Char} {c : Char} {rest₁ : List Char}
    {t : LexedToken} {l' : Lexer}
    (h : Aligned l.reader done (c :: rest₁))
    (hnt : (match scan_operator l with
            | some x => some x
            | none => next_token_res l) = some (t, l')) :
    ∃ p rest', c :: rest₁ = p ++ rest' ∧ p ≠ [] ∧ t.token ≠ Token.Eof ∧
      Aligned l'.reader (done ++ p) rest' ∧
      t.span.start = byteLen done ∧
      byteLen done + byteLen p.dropLast ≤ t.span.«end» ∧
      (t.span.«end» < byteLen done + byteLen p ∨ rest' = []) := by
  have hc : l.reader.curr_char = some c := StringReader.aligned_curr h
  by_cases hm : is_multi_byte_op_start c = true
  · rcases is_multi_byte_op_start_cases hm with hc1 | hc1 | hc1
    · subst hc1
      cases rest₁ with
      | nil =>
        have hpk : l.reader.peek_next = none := by
          rw [StringReader.aligned_peek h]
          rfl
        simp [scan_operator, scan_multi_of_nocont_fail hc (by decide) hpk (by decide) (by decide),
          scan_single_of_neg hc (by decide), next_token_res, hc, is_ident_start] at hnt
      | cons c₂ rest₂ =>
        have hpk : l.reader.peek_next = some c₂ := by
          rw [StringReader.aligned_peek h]
          rfl
        by_cases hcont : is_multi_byte_op_cont c₂ = true
        · rcases is_multi_byte_op_cont_cases hcont with hc2 | hc2
          · subst hc2
            simp only [scan_operator, scan_multi_of_cont hc (by decide) hpk (by decide)
              (by decide : Op.from_str ['!', '='] = some Op.NotEq)] at hnt
            exact step_op_two h hnt
          · subst hc2
            simp [scan_operator, scan_multi_of_cont_fail hc (by decide) hpk (by decide)
                (by decide),
              scan_single_of_neg hc (by decide), next_token_res, hc, is_ident_start] at hnt
        · have hcf : is_multi_byte_op_cont c₂ = false := bool_eq_false hcont
          simp [scan_operator, scan_multi_of_nocont_fail hc (by decide) hpk
              (by simpa using hcf) (by decide),
            scan_single_of_neg hc (by decide), next_token_res, hc, is_ident_start] at hnt
    · subst hc1
      cases rest₁ with
      | nil =>
        have hpk : l.reader.peek_next = none := by
          rw [StringReader.aligned_peek h]
          rfl
        simp only [scan_operator, scan_multi_of_nocont hc (by decide) hpk (by decide)
          (by decide : Op.from_str ['<'] = some Op.Lt)] at hnt
        exact step_op_one_multi h hnt
      | cons c₂ rest₂ =>
        have hpk : l.reader.peek_next = some c₂ := by
          rw [StringReader.aligned_peek h]
          rfl
        by_cases hcont : is_multi_byte_op_cont c₂ = true
        · rcases is_multi_byte_op_cont_cases hcont with hc2 | hc2
          · subst hc2
            simp only [scan_operator, scan_multi_of_cont hc (by decide) hpk (by decide)
              (by decide : Op.from_str ['<', '='] = some Op.LtEq)] at hnt
            exact step_op_two h hnt
          · subst hc2
            simp only [scan_operator, scan_multi_of_cont hc (by decide) hpk (by decide)
              (by decide : Op.from_str ['<', '>'] = some Op.NotEq)] at hnt
            exact step_op_two h hnt
        · have hcf : is_multi_byte_op_cont c₂ = false := bool_eq_false hcont
          simp only [scan_operator, scan_multi_of_nocont hc (by decide) hpk
            (by simpa using hcf) (by decide : Op.from_str ['<'] = some Op.Lt)] at hnt
          exact step_op_one_multi h hnt
    · subst hc1
      cases rest₁ with
      | nil =>
        have hpk : l.reader.peek_next = none := by
          rw [StringReader.aligned_peek h]
          rfl
        simp only [scan_operator, scan_multi_of_nocont hc (by decide) hpk (by decide)
          (by decide : Op.from_str ['>'] = some Op.Gt)] at hnt
        exact step_op_one_multi h hnt
      | cons c₂ rest₂ =>
        have hpk : l.reader.peek_next = some c₂ := by
          rw [StringReader.aligned_peek h]
          rfl
        by_cases hcont : is_multi_byte_op_cont c₂ = true
        · rcases is_multi_byte_op_cont_cases hcont with hc2 | hc2
          · subst hc2
            simp only [scan_operator, scan_multi_of_cont hc (by decide) hpk (by decide)
              (by decide : Op.from_str ['>', '='] = some Op.GtEq)] at hnt
            exact step_op_two h hnt
          · subst hc2
            simp only [scan_operator, scan_multi_of_cont_fail hc (by decide) hpk (by decide)
                (by decide),
              scan_single_of_op hc (by decide)
                (by decide : Op.from_str ['>'] = some Op.Gt)] at hnt
            exact step_op_one h hnt
        · have hcf : is_multi_byte_op_cont c₂ = false := bool_eq_false hcont
          simp only [scan_operator, scan_multi_of_nocont hc (by decide) hpk
            (by simpa using hcf) (by decide : Op.from_str ['>'] = some Op.Gt)] at hnt
          exact step_op_one_multi h hnt
  · have hmf : is_multi_byte_op_start c = false := bool_eq_false hm
    by_cases hs : is_single_byte_op_char c = true
    · rcases is_single_byte_op_char_cases hs with hc1 | hc1 | hc1 | hc1 | hc1 | hc1 | hc1 | hc1 <;>
        subst hc1
      · simp only [scan_operator, scan_multi_of_notstart hc (by decide),
          scan_single_of_op hc (by decide) (by decide : Op.from_str ['+'] = some Op.Plus)] at hnt
        exact step_op_one h hnt
      · simp only [scan_operator, scan_multi_of_notstart hc (by decide),
          scan_single_of_op hc (by decide) (by decide : Op.from_str ['-'] = some Op.Minus)] at hnt
        exact step_op_one h hnt
      · simp only [scan_operator, scan_multi_of_notstart hc (by decide),
          scan_single_of_op hc (by decide) (by decide : Op.from_str ['*'] = some Op.Star)] at hnt
        exact step_op_one h hnt
      · simp only [scan_operator, scan_multi_of_notstart hc (by decide),
          scan_single_of_op hc (by decide) (by decide : Op.from_str ['/'] = some Op.Slash)] at hnt
        exact step_op_one h hnt
      · simp only [scan_operator, scan_multi_of_notstart hc (by decide),
          scan_single_of_op hc (by decide) (by decide : Op.from_str ['%'] = some Op.Percent)] at hnt
        exact step_op_one h hnt
      · simp only [scan_operator, scan_multi_of_notstart hc (by decide),
          scan_single_of_op hc (by decide) (by decide : Op.from_str ['='] = some Op.Eq)] at hnt
        exact step_op_one h hnt
      · exact absurd hmf (by decide)
      · exact absurd hmf (by decide)
    · have hsf : is_single_byte_op_char c = false := bool_eq_false hs
      simp only [scan_operator, scan_multi_of_notstart hc hmf, scan_single_of_neg hc hsf] at hnt
      by_cases hid : is_ident_start c = true
      · obtain ⟨hres, ha⟩ := aligned_scan_ident h hid
        rw [hres] at hnt
        obtain ⟨ht, hl⟩ := pair_some_inj hnt
        subst ht
        subst hl
        have hcontc : is_ident_cont c = true := ident_start_cont hid
        have htw : (c :: rest₁).takeWhile is_ident_cont = c :: rest₁.takeWhile is_ident_cont :=
          List.takeWhile_cons_of_pos hcontc
        have hpne : (c :: rest₁).takeWhile is_ident_cont ≠ [] := by simp [htw]
        refine ⟨(c :: rest₁).takeWhile is_ident_cont, (c :: rest₁).dropWhile is_ident_cont,
          (List.takeWhile_append_dropWhile _ _).symm, hpne, ?_, ha, ?_, ?_, ?_⟩
        · cases hk :
              Keyword.from_str (((c :: rest₁).takeWhile is_ident_cont).map charToLowercase) <;>
            simp [LexedToken.new, Span.new, hk]
        · simp [LexedToken.new, Span.new]
        · simp [LexedToken.new, Span.new]
        · left
          simp only [LexedToken.new, Span.new]
          exact Nat.add_lt_add_left (byteLen_dropLast_lt _ hpne) _
      · simp [next_token_res, hc, hid] at hnt

/-- One `next_token` call on an aligned state: either the input is
exhausted and the zero-width `Eof` token is produced with the state
untouched, or a non-empty prefix `p` of the remaining input is consumed
and the emitted span starts at the cursor's offset, reaches at least the
start of `p`'s last character, and stays short of the first unconsumed
character. -/
theorem next_token_step {l : Lexer} {done rest : List Char} {t : LexedToken} {l' : Lexer}
    (h : Aligned l.reader done rest) (hnt : next_token l = some (t, l')) :
    (rest = [] ∧ t.token = Token.Eof ∧ t.span.start = t.span.«end» ∧ l' = l) ∨
    (∃ p rest', rest = p ++ rest' ∧ p ≠ [] ∧ t.token ≠ Token.Eof ∧
      Aligned l'.reader (done ++ p) rest' ∧
      t.span.start = byteLen done ∧
      byteLen done + byteLen p.dropLast ≤ t.span.«end» ∧
      (t.span.«end» < byteLen done + byteLen p ∨ rest' = [])) := by
  cases rest with
  | nil =>
    have hc : l.reader.curr_char = none := by simpa using h.curr_eq
    simp only [next_token, next_token_opt, scan_eof_of_none hc] at hnt
    obtain ⟨ht, hl⟩ := pair_some_inj hnt
    subst ht
    subst hl
    exact Or.inl ⟨rfl, rfl, rfl, rfl⟩
  | cons c rest₁ =>
    have hc : l.reader.curr_char = some c := StringReader.aligned_curr h
    have heof := scan_eof_of_some hc
    cases hw : rustIsWhitespace c with
    | true =>
      obtain ⟨hws, ha⟩ := aligned_scan_whitespace h hw
      simp only [next_token, next_token_opt, heof, hws] at hnt
      obtain ⟨ht, hl⟩ := pair_some_inj hnt
      subst ht
      subst hl
      right
      have hpne : (c :: rest₁).takeWhile rustIsWhitespace ≠ [] := by
        simp [List.takeWhile_cons_of_pos hw]
      refine ⟨(c :: rest₁).takeWhile rustIsWhitespace, (c :: rest₁).dropWhile rustIsWhitespace,
        (List.takeWhile_append_dropWhile _ _).symm, hpne,
        by simp [LexedToken.new, Span.new], ha,
        by simp [LexedToken.new, Span.new], by simp [LexedToken.new, Span.new], ?_⟩
      left
      simp only [LexedToken.new, Span.new]
      exact Nat.add_lt_add_left (byteLen_dropLast_lt _ hpne) _
    | false =>
      have hws := scan_whitespace_of_neg hc hw
      by_cases hdash : c = '-'
      · subst hdash
        cases rest₁ with
        | nil =>
          have hpk : l.reader.peek_next = none := by
            rw [StringReader.aligned_peek h]
            rfl
          have hcm : scan_comment l = none := scan_comment_of_false
            (by simp [StringReader.curr_is, StringReader.next_is, hc, hpk])
          right
          have hnt' : (match scan_operator l with
              | some x => some x
              | none => next_token_res l) = some (t, l') := by
            rw [← hnt]
            simp only [next_token, next_token_opt, heof, hws, hcm]
          exact step_from_operator h hnt'
        | cons c₂ rest₂ =>
          have hpk : l.reader.peek_next = some c₂ := by
            rw [StringReader.aligned_peek h]
            rfl
          by_cases hd2 : c₂ = '-'
          · subst hd2
            obtain ⟨hcm, hcase⟩ := aligned_scan_comment h
            simp only [next_token, next_token_opt, heof, hws, hcm] at hnt
            obtain ⟨ht, hl⟩ := pair_some_inj hnt
            subst ht
            subst hl
            right
            have hsz : ('-' : Char).utf8Size = 1 := by decide
            have hszn : ('\n' : Char).utf8Size = 1 := by decide
            rcases hcase with ⟨hd, ha, -⟩ | ⟨rest₃, hd, ha⟩
            · have hrest : rest₂ = rest₂.takeWhile (fun c => !(c == '\n')) := by
                have h0 := List.takeWhile_append_dropWhile (fun c => !(c == '\n')) rest₂
                rw [hd] at h0
                simpa using h0.symm
              refine ⟨'-' :: '-' :: rest₂.takeWhile (fun c => !(c == '\n')), [],
                by rw [← hrest]; simp, by simp,
                by simp [LexedToken.new, Span.new], by simpa using ha,
                by simp [LexedToken.new, Span.new], ?_, Or.inr rfl⟩
              simp only [LexedToken.new, Span.new]
              have hle := byteLen_dropLast_le ('-' :: '-' :: rest₂.takeWhile (fun c => !(c == '\n')))
              simp [byteLen, hsz] at hle ⊢
              omega
            · have hrest : rest₂ = rest₂.takeWhile (fun c => !(c == '\n')) ++ '\n' :: rest₃ := by
                have h0 := List.takeWhile_append_dropWhile (fun c => !(c == '\n')) rest₂
                rw [hd] at h0
                exact h0.symm
              have hsplit : '-' :: '-' :: rest₂ =
                  (('-' :: '-' :: rest₂.takeWhile (fun c => !(c == '\n'))) ++ ['\n']) ++ rest₃ := by
                conv_lhs => rw [hrest]
                simp
              refine ⟨('-' :: '-' :: rest₂.takeWhile (fun c => !(c == '\n'))) ++ ['\n'], rest₃,
                hsplit, by simp,
                by simp [LexedToken.new, Span.new], by simpa [List.append_assoc] using ha,
                by simp [LexedToken.new, Span.new], ?_, ?_⟩
              · simp only [LexedToken.new, Span.new, List.dropLast_concat]
                simp [byteLen, hsz]
                omega
              · left
                simp only [LexedToken.new, Span.new]
                simp [byteLen_append, byteLen, hsz, hszn]
                omega
          · have hcm : scan_comment l = none := scan_comment_of_false
              (by simp [StringReader.curr_is, StringReader.next_is, hc, hpk, hd2])
            right
            have hnt' : (match scan_operator l with
                | some x => some x
                | none => next_token_res l) = some (t, l') := by
              rw [← hnt]
              simp only [next_token, next_token_opt, heof, hws, hcm]
            exact step_from_operator h hnt'
      · have hcm : scan_comment l = none := scan_comment_of_false
          (by simp [StringReader.curr_is, hc, hdash])
        right
        have hnt' : (match scan_operator l with
            | some x => some x
            | none => next_token_res l) = some (t, l') := by
          rw [← hnt]
          simp only [next_token, next_token_opt, heof, hws, hcm]
        exact step_from_operator h hnt'

theorem ident_start_not_single {c : Char} (h : is_ident_start c = true) :
    is_single_byte_op_char c = false := by
  simp [is_ident_start] at h
  simp [is_single_byte_op_char]
  omega

theorem ident_start_not_multi {c : Char} (h : is_ident_start c = true) :
    is_multi_byte_op_start c = false := by
  simp [is_ident_start] at h
  simp [is_multi_byte_op_start]
  omega

theorem ident_start_ne_dash {c : Char} (h : is_ident_start c = true) : ¬ c = '-' := by
  intro he
  subst he
  exact absurd h (by decide)

theorem scan_eof_state {l : Lexer} {x : LexedToken × Lexer} (h : scan_eof l = some x) :
    x.2 = l := by
  simp only [scan_eof] at h
  split at h
  · rw [← Option.some.inj h]
  · exact Option.noConfusion h

theorem scan_whitespace_state {l : Lexer} {x : LexedToken × Lexer}
    (h : scan_whitespace l = some x) :
    x.2.reader = l.reader.advance_while rustIsWhitespace := by
  simp only [scan_whitespace] at h
  split at h
  · rw [← Option.some.inj h]
  · exact Option.noConfusion h

theorem scan_comment_state {l : Lexer} {x : LexedToken × Lexer}
    (h : scan_comment l = some x) :
    x.2.reader = (l.reader.advance.advance.read_line).2 := by
  simp only [scan_comment] at h
  split at h
  · rw [← Option.some.inj h]
  · exact Option.noConfusion h

theorem scan_single_state {l : Lexer} {x : LexedToken × Lexer}
    (h : scan_single_byte_operator l = some x) :
    x.2.reader = l.reader.advance := by
  simp only [scan_single_byte_operator] at h
  repeat' split at h
  all_goals first
    | exact Option.noConfusion h
    | rw [← Option.some.inj h]

theorem scan_multi_state {l : Lexer} {x : LexedToken × Lexer}
    (h : scan_multi_byte_operator l = some x) :
    ∃ n, x.2.reader = l.reader.advance_bytes n := by
  simp only [scan_multi_byte_operator] at h
  repeat' split at h
  all_goals first
    | exact Option.noConfusion h
    | exact ⟨_, by rw [← Option.some.inj h]⟩

theorem next_token_res_state {l : Lexer} {x : LexedToken × Lexer}
    (h : next_token_res l = some x) :
    x.2.reader = (l.reader.read_while is_ident_cont).2 := by
  simp only [next_token_res] at h
  repeat' split at h
  all_goals first
    | exact Option.noConfusion h
    | (rw [← Option.some.inj h]; rfl)

/-- Cursor position never decreases across a successful `next_token`. -/
theorem next_token_curr_le {l : Lexer} {t : LexedToken} {l' : Lexer}
    (h : next_token l = some (t, l')) : l.reader.curr_pos ≤ l'.reader.curr_pos := by
  unfold next_token next_token_opt at h
  cases he : scan_eof l with
  | some x =>
    obtain ⟨t0, l0⟩ := x
    simp only [he] at h
    obtain ⟨-, hl⟩ := pair_some_inj h
    rw [hl]
    have h0 : l0 = l := scan_eof_state he
    rw [h0]
  | none =>
    simp only [he] at h
    cases hw : scan_whitespace l with
    | some x =>
      obtain ⟨t0, l0⟩ := x
      simp only [hw] at h
      obtain ⟨-, hl⟩ := pair_some_inj h
      rw [hl]
      have h0 : l0.reader = l.reader.advance_while rustIsWhitespace := scan_whitespace_state hw
      rw [h0]
      exact StringReader.advance_while_curr_le rustIsWhitespace l.reader
    | none =>
      simp only [hw] at h
      cases hcm : scan_comment l with
      | some x =>
        obtain ⟨t0, l0⟩ := x
        simp only [hcm] at h
        obtain ⟨-, hl⟩ := pair_some_inj h
        rw [hl]
        have h0 : l0.reader = (l.reader.advance.advance.read_line).2 := scan_comment_state hcm
        rw [h0]
        exact le_trans (StringReader.advance_curr_le l.reader)
          (le_trans (StringReader.advance_curr_le l.reader.advance)
            (StringReader.read_line_curr_le l.reader.advance.advance))
      | none =>
        simp only [hcm] at h
        cases hop : scan_operator l with
        | some x =>
          obtain ⟨t0, l0⟩ := x
          simp only [hop] at h
          obtain ⟨-, hl⟩ := pair_some_inj h
          rw [hl]
          unfold scan_operator at hop
          cases hmb : scan_multi_byte_operator l with
          | some y =>
            rw [hmb] at hop
            obtain ⟨n, hn⟩ := scan_multi_state hmb
            rw [Option.some.inj hop] at hn
            have h0 : l0.reader = l.reader.advance_bytes n := hn
            rw [h0]
            exact StringReader.advance_bytes_curr_le l.reader n
          | none =>
            rw [hmb] at hop
            have h0 : l0.reader = l.reader.advance := scan_single_state hop
            rw [h0]
            exact StringReader.advance_curr_le l.reader
        | none =>
          simp only [hop] at h
          have h0 : l'.reader = (l.reader.read_while is_ident_cont).2 :=
            next_token_res_state h
          rw [h0]
          exact StringReader.read_while_curr_le is_ident_cont l.reader

theorem scan_whitespaceF_eq (l : Lexer) : scan_whitespaceF l = scan_whitespace l := by
  simp only [scan_whitespaceF, scan_whitespace,
    StringReader.advanceWhileFuel_eq (StringReader.fuelLeft l.reader) l.reader rustIsWhitespace
      le_rfl]

theorem scan_commentF_eq (l : Lexer) : scan_commentF l = scan_comment l := by
  simp only [scan_commentF, scan_comment,
    StringReader.readLineFuel_eq (StringReader.fuelLeft l.reader.advance.advance)
      l.reader.advance.advance le_rfl]

theorem scan_keyword_or_unquoted_identifierF_eq (l : Lexer) :
    scan_keyword_or_unquoted_identifierF l = scan_keyword_or_unquoted_identifier l := by
  simp only [scan_keyword_or_unquoted_identifierF, scan_keyword_or_unquoted_identifier,
    StringReader.readWhileFuel_eq (StringReader.fuelLeft l.reader) l.reader is_ident_cont le_rfl]

theorem next_tokenF_eq (l : Lexer) : next_tokenF l = next_token l := by
  simp only [next_tokenF, next_token, next_token_optF, next_token_opt, next_token_resF,
    next_token_res, scan_whitespaceF_eq, scan_commentF_eq,
    scan_keyword_or_unquoted_identifierF_eq]

end Lexer

theorem tokenizeFuelF_eq : ∀ (n : Nat) (l : Lexer), tokenizeFuelF n l = tokenizeFuel n l := by
  intro n
  induction n with
  | zero =>
    intro l
    rfl
  | succ n ih =>
    intro l
    simp only [tokenizeFuelF, tokenizeFuel, Lexer.next_tokenF_eq]
    cases hx : Lexer.next_token l with
    | none => rfl
    | some x =>
      obtain ⟨t, l'⟩ := x
      simp only [ih]

theorem spanSlice_append (xs ys : List Char) (o s e : Nat) :
    spanSlice (xs ++ ys) o s e = spanSlice xs o s e ++ spanSlice ys (o + byteLen xs) s e := by
  induction xs generalizing o with
  | nil => simp [spanSlice, byteLen]
  | cons c cs ih =>
    simp only [List.cons_append, spanSlice, List.append_eq]
    rw [ih (o + c.utf8Size), List.append_assoc, byteLen_cons, ← Nat.add_assoc]

theorem spanSlice_all_lo (xs : List Char) (o s e : Nat) (h : o + byteLen xs ≤ s) :
    spanSlice xs o s e = [] := by
  induction xs generalizing o with
  | nil => rfl
  | cons c cs ih =>
    have hsz := Char.utf8Size_pos c
    have hb : o + (c.utf8Size + byteLen cs) ≤ s := by
      simpa [byteLen_cons] using h
    simp only [spanSlice]
    rw [if_neg (by omega), List.nil_append]
    exact ih (o + c.utf8Size) (by omega)

theorem spanSlice_all_hi (xs : List Char) (o s e : Nat) (h : e < o) :
    spanSlice xs o s e = [] := by
  induction xs generalizing o with
  | nil => rfl
  | cons c cs ih =>
    have hsz := Char.utf8Size_pos c
    simp only [spanSlice]
    rw [if_neg (by omega), List.nil_append]
    exact ih (o + c.utf8Size) (by omega)

theorem spanSlice_all_in (xs : List Char) (o s e : Nat) (hs : s ≤ o)
    (he : o + byteLen xs.dropLast ≤ e) :
    spanSlice xs o s e = xs := by
  induction xs generalizing o with
  | nil => rfl
  | cons c cs ih =>
    have hsz := Char.utf8Size_pos c
    have ho : o ≤ e := by omega
    simp only [spanSlice]
    rw [if_pos ⟨hs, ho⟩]
    cases cs with
    | nil => simp [spanSlice]
    | cons d ds =>
      have he' : (o + c.utf8Size) + byteLen (d :: ds).dropLast ≤ e := by
        have hdl : (c :: d :: ds).dropLast = c :: (d :: ds).dropLast := List.dropLast_cons₂
        rw [hdl, byteLen_cons] at he
        omega
      simp [ih (o + c.utf8Size) (by omega) he']

/-- The span slice `[byteLen done, e]` of `done ++ p ++ rest'` is exactly
`p`, provided `e` reaches the offset of `p`'s last character and either
stops before `rest'` or `rest'` is empty. -/
theorem spanSlice_exact (done p rest' : List Char) (e : Nat) (hp : p ≠ [])
    (h1 : byteLen done + byteLen p.dropLast ≤ e)
    (h2 : e < byteLen done + byteLen p ∨ rest' = []) :
    spanSlice ((done ++ p) ++ rest') 0 (byteLen done) e = p := by
  rw [spanSlice_append, spanSlice_append]
  rw [spanSlice_all_lo done 0 (byteLen done) e (by omega)]
  rw [spanSlice_all_in p (0 + byteLen done) (byteLen done) e (by omega) (by omega)]
  rcases h2 with h2 | h2
  · rw [spanSlice_all_hi rest' (0 + byteLen (done ++ p)) (byteLen done) e
      (by rw [byteLen_append]; omega)]
    simp
  · subst h2
    simp [spanSlice]

/-- Main induction for losslessness: tokenizing the remainder of an
aligned state reproduces, through the spans, exactly that remainder, and
the token list ends with a zero-width `Eof`. -/
theorem tokenizeFuel_aligned :
    ∀ (fuel : Nat) (l : Lexer) (done rest : List Char) (ts : List LexedToken),
    Aligned l.reader done rest →
    tokenizeFuel fuel l = some ts →
    ((ts.dropLast.map
        (fun t => spanSlice (done ++ rest) 0 t.span.start t.span.«end»)).flatten = rest ∧
      ∃ t, ts.getLast? = some t ∧ t.token = Token.Eof ∧ t.span.start = t.span.«end») := by
  intro fuel
  induction fuel with
  | zero =>
    intro l done rest ts h htk
    exact absurd htk (by simp [tokenizeFuel])
  | succ fuel ih =>
    intro l done rest ts h htk
    simp only [tokenizeFuel] at htk
    cases hnt : Lexer.next_token l with
    | none =>
      simp only [hnt] at htk
      exact Option.noConfusion htk
    | some x =>
      obtain ⟨t, l'⟩ := x
      simp only [hnt] at htk
      rcases Lexer.next_token_step h hnt with
        ⟨hrest, htok, hspan, -⟩ | ⟨p, rest', hre, hpne, htok, ha, hstart, hmid, hlast⟩
      · rw [if_pos htok] at htk
        have hts : ts = [t] := (Option.some.inj htk).symm
        subst hts
        subst hrest
        exact ⟨by simp, t, rfl, htok, hspan⟩
      · rw [if_neg htok] at htk
        cases htk2 : tokenizeFuel fuel l' with
        | none =>
          rw [htk2] at htk
          exact Option.noConfusion htk
        | some ts' =>
          rw [htk2] at htk
          have hts : ts = t :: ts' := (Option.some.inj htk).symm
          subst hts
          obtain ⟨hjoin, tl, hlastq, heo, hsp⟩ := ih l' (done ++ p) rest' ts' ha htk2
          have hne : ts' ≠ [] := by
            intro hcon
            rw [hcon] at hlastq
            simp at hlastq
          subst hre
          constructor
          · have hdl : (t :: ts').dropLast = t :: ts'.dropLast := by
              cases ts' with
              | nil => exact absurd rfl hne
              | cons u us => exact List.dropLast_cons₂
            rw [hdl]
            simp only [List.map_cons, List.flatten_cons]
            have hslice : spanSlice (done ++ (p ++ rest')) 0 t.span.start t.span.«end» = p := by
              rw [hstart, ← List.append_assoc]
              exact spanSlice_exact done p rest' t.span.«end» hpne hmid hlast
            rw [hslice]
            have hassoc : (done ++ p) ++ rest' = done ++ (p ++ rest') := List.append_assoc done p rest'
            rw [hassoc] at hjoin
            rw [hjoin]
          · have hgl : (t :: ts').getLast? = ts'.getLast? := by
              cases ts' with
              | nil => exact absurd rfl hne
              | cons u us => exact List.getLast?_cons_cons
            rw [hgl]
            exact ⟨tl, hlastq, heo, hsp⟩

theorem keyword_from_str_underscore (ys : List Char) :
    Keyword.from_str ('_' :: ys) = none := by
  have h1 : charToLowercase '_' = '_' := by decide
  simp [Keyword.from_str, h1]

/-!
## Claims

One theorem per claim (with a closed counterexample for the corrected
claims, and a closed witness for every theorem with a hypothesis).
-/

/-- **C1** (lossless tokenization): for every input, when pulling tokens
with `next_token` terminates in an `EndOfInput` token (some fuel
suffices and no lexical panic occurs), concatenating the source
substrings named by the spans of all emitted tokens in order — the
`Whitespace` and `Comment` tokens included, the comment line terminators
included (a comment's span reaches the consumed terminator's offset),
and only the final zero-width `EndOfInput` token excluded — reproduces
the original input exactly. -/
theorem C1_lossless_tokenization (input : List Char) (fuel : Nat) (ts : List LexedToken)
    (h : tokenizeFuel fuel (Lexer.new input) = some ts) :
    (ts.dropLast.map (fun t => spanSlice input 0 t.span.start t.span.«end»)).flatten = input ∧
      ∃ t, ts.getLast? = some t ∧ t.token = Token.Eof ∧ t.span.start = t.span.«end» := by
  have h0 := tokenizeFuel_aligned fuel (Lexer.new input) [] input ts
    (Lexer.aligned_lexer_new input) h
  simpa using h0

/-- Witness for C1 on the input `"-- hi\nx"` (a comment whose consumed
terminator is covered by its span, an identifier, and the final `Eof`). -/
theorem C1_lossless_tokenization_witness :
    tokenizeFuel 4 (Lexer.new ("-- hi\nx".toList)) =
      some [⟨Token.Comment (" hi".toList), ⟨0, 5⟩⟩, ⟨Token.Ident ("x".toList), ⟨6, 6⟩⟩,
        ⟨Token.Eof, ⟨6, 6⟩⟩] ∧
    (([⟨Token.Comment (" hi".toList), ⟨0, 5⟩⟩, ⟨Token.Ident ("x".toList), ⟨6, 6⟩⟩,
        (⟨Token.Eof, ⟨6, 6⟩⟩ : LexedToken)].dropLast.map
        (fun t => spanSlice ("-- hi\nx".toList) 0 t.span.start t.span.«end»)).flatten =
        "-- hi\nx".toList ∧
      ∃ t, ([⟨Token.Comment (" hi".toList), ⟨0, 5⟩⟩, ⟨Token.Ident ("x".toList), ⟨6, 6⟩⟩,
        (⟨Token.Eof, ⟨6, 6⟩⟩ : LexedToken)].getLast? = some t ∧ t.token = Token.Eof ∧
          t.span.start = t.span.«end»)) := by
  have hts : tokenizeFuel 4 (Lexer.new ("-- hi\nx".toList)) =
      some [⟨Token.Comment (" hi".toList), ⟨0, 5⟩⟩, ⟨Token.Ident ("x".toList), ⟨6, 6⟩⟩,
        ⟨Token.Eof, ⟨6, 6⟩⟩] := by
    rw [← tokenizeFuelF_eq]
    decide
  exact ⟨hts, C1_lossless_tokenization ("-- hi\nx".toList) 4 _ hts⟩

/-- **C2** (code bug): the claim — and §7/§9 of the specification —
require a typed `LexError` on a character matching no scan rule; the
source instead reaches `unimplemented!()` and aborts.  At the failing
input `"?"` (whitespace/comment/operator/identifier rules all decline,
as the first four conjuncts check) `next_token` takes the panic path,
modelled as `none`, instead of returning an error value. -/
theorem C2_unrecognized_char_panics :
    rustIsWhitespace '?' = false ∧ ¬ ('?' : Char) = '-' ∧
    is_multi_byte_op_start '?' = false ∧ is_single_byte_op_char '?' = false ∧
    is_ident_start '?' = false ∧
    Lexer.next_token (Lexer.new ("?".toList)) = none := by
  refine ⟨by decide, by decide, by decide, by decide, by decide, ?_⟩
  rw [← Lexer.next_tokenF_eq]
  decide

/-- **C3** counterexample: on `"-- hi\nx"` the comment token's span is
`(0, 5)`, and byte 5 is the line terminator itself, so the span reaches
the terminator's offset — not "just before" it — and the source
substring named by the span, `"-- hi\n"`, includes the terminator,
contradicting the claim that neither the span nor the text includes it
(the text indeed excludes it; the span does not). -/
theorem C3_comment_span_counterexample :
    Lexer.next_token (Lexer.new ("-- hi\nx".toList)) =
      some (⟨Token.Comment (" hi".toList), ⟨0, 5⟩⟩,
        ⟨⟨"-- hi\nx".toList, 5, 6, some 'x'⟩⟩) ∧
    charAt ("-- hi\nx".toList) 5 = some '\n' ∧
    spanSlice ("-- hi\nx".toList) 0 0 5 = "-- hi\n".toList := by
  refine ⟨?_, by decide, by decide⟩
  rw [← Lexer.next_tokenF_eq]
  decide

/-- **C3** (amended): a comment token's span runs from the marker's
start to the consumed line terminator's own offset inclusive (when no
terminator exists, to the input's byte length); the comment text
excludes both the two-character marker and the terminator. -/
theorem C3_comment_span {l : Lexer} {done rest₂ : List Char}
    (h : Aligned l.reader done ('-' :: '-' :: rest₂)) :
    ∃ l', Lexer.next_token l = some
        (⟨Token.Comment (rest₂.takeWhile (fun c => !(c == '\n'))),
          ⟨byteLen done,
            byteLen done + 2 + byteLen (rest₂.takeWhile (fun c => !(c == '\n')))⟩⟩, l') ∧
      (∀ c ∈ rest₂.takeWhile (fun c => !(c == '\n')), ¬ c = '\n') ∧
      (∀ rest₃, rest₂.dropWhile (fun c => !(c == '\n')) = '\n' :: rest₃ →
        charAt l.reader.input
          (byteLen done + 2 + byteLen (rest₂.takeWhile (fun c => !(c == '\n')))) =
          some '\n') ∧
      (rest₂.dropWhile (fun c => !(c == '\n')) = [] →
        byteLen done + 2 + byteLen (rest₂.takeWhile (fun c => !(c == '\n'))) =
          byteLen l.reader.input) := by
  have hc : l.reader.curr_char = some '-' := StringReader.aligned_curr h
  obtain ⟨hcm, -⟩ := Lexer.aligned_scan_comment h
  have hsz : ('-' : Char).utf8Size = 1 := by decide
  have hnt : Lexer.next_token l = some
      (LexedToken.new (Token.Comment (rest₂.takeWhile (fun c => !(c == '\n'))))
        (byteLen done)
        (byteLen done + 2 + byteLen (rest₂.takeWhile (fun c => !(c == '\n')))),
       ⟨(l.reader.advance.advance.read_line).2⟩) := by
    simp only [Lexer.next_token, Lexer.next_token_opt, Lexer.scan_eof_of_some hc,
      Lexer.scan_whitespace_of_neg hc (by decide), hcm]
  refine ⟨_, hnt, ?_, ?_, ?_⟩
  · intro c hmem
    have h0 := List.mem_takeWhile_imp hmem
    simpa using h0
  · intro rest₃ hd
    have hrest : rest₂ = rest₂.takeWhile (fun c => !(c == '\n')) ++ '\n' :: rest₃ := by
      have h0 := List.takeWhile_append_dropWhile (p := fun c => !(c == '\n')) (l := rest₂)
      rw [hd] at h0
      exact h0.symm
    have hin : l.reader.input =
        (done ++ '-' :: '-' :: rest₂.takeWhile (fun c => !(c == '\n'))) ++ '\n' :: rest₃ := by
      rw [h.input_eq]
      conv_lhs => rw [hrest]
      simp
    have hb : byteLen done + 2 + byteLen (rest₂.takeWhile (fun c => !(c == '\n'))) =
        byteLen (done ++ '-' :: '-' :: rest₂.takeWhile (fun c => !(c == '\n'))) := by
      rw [byteLen_append, byteLen_cons, byteLen_cons, hsz]
      omega
    rw [hin, hb, charAt_append_byteLen]
    rfl
  · intro hd
    have hrest : rest₂ = rest₂.takeWhile (fun c => !(c == '\n')) := by
      have h0 := List.takeWhile_append_dropWhile (p := fun c => !(c == '\n')) (l := rest₂)
      rw [hd] at h0
      simpa using h0.symm
    have h2 : byteLen rest₂ = byteLen (rest₂.takeWhile (fun c => !(c == '\n'))) := by
      conv_lhs => rw [hrest]
    have h3 : byteLen l.reader.input = byteLen done + 2 + byteLen rest₂ := by
      rw [h.input_eq, byteLen_append, byteLen_cons, byteLen_cons, hsz]
      omega
    rw [h3]
    omega

/-- Witness for the amended C3 on the input `"-- hi\nx"`. -/
theorem C3_comment_span_witness :
    (Lexer.next_token (Lexer.new ("-- hi\nx".toList))).map (fun p => p.1) =
      some ⟨Token.Comment (" hi".toList), ⟨0, 5⟩⟩ := by
  obtain ⟨l', hnt, -, -, -⟩ := C3_comment_span
    (show Aligned (Lexer.new ("-- hi\nx".toList)).reader [] ('-' :: '-' :: (" hi\nx".toList))
      from ⟨by decide, by decide, by decide⟩)
  rw [hnt, Option.map_some']
  show some (⟨Token.Comment ((" hi\nx".toList).takeWhile (fun c => !(c == '\n'))),
    ⟨byteLen ([] : List Char), byteLen ([] : List Char) + 2 +
      byteLen ((" hi\nx".toList).takeWhile (fun c => !(c == '\n')))⟩⟩ : LexedToken) =
    some ⟨Token.Comment (" hi".toList), ⟨0, 5⟩⟩
  decide

/-- **C4** (idempotent termination): once `next_token` returns an
`EndOfInput` token, the lexer state is untouched and every subsequent
call returns the same `EndOfInput` token with the same zero-width span. -/
theorem C4_eof_idempotent {l : Lexer} {done rest : List Char} {t : LexedToken} {l' : Lexer}
    (ha : Aligned l.reader done rest) (h : Lexer.next_token l = some (t, l'))
    (he : t.token = Token.Eof) :
    l' = l ∧ Lexer.next_token l' = some (t, l') ∧ t.span.start = t.span.«end» := by
  rcases Lexer.next_token_step ha h with ⟨-, -, hspan, hl⟩ | ⟨p, rest', -, -, htok, -⟩
  · refine ⟨hl, ?_, hspan⟩
    rw [hl] at h ⊢
    exact h
  · exact absurd he htok

/-- Witness for C4 on the empty input. -/
theorem C4_eof_idempotent_witness :
    Lexer.new ([] : List Char) = Lexer.new ([] : List Char) ∧
    Lexer.next_token (Lexer.new ([] : List Char)) =
      some (⟨Token.Eof, ⟨0, 0⟩⟩, Lexer.new ([] : List Char)) ∧
    (⟨Token.Eof, ⟨0, 0⟩⟩ : LexedToken).span.start =
      (⟨Token.Eof, ⟨0, 0⟩⟩ : LexedToken).span.«end» :=
  C4_eof_idempotent (StringReader.aligned_new [])
    (by rw [← Lexer.next_tokenF_eq]; decide) rfl

/-- **C5** (greedy longest-match operators): `"<="` yields a single
`LtEq` token spanning both characters with the cursor advanced by 2;
`"<"` followed by a character other than `'='`/`'>'` yields a single
`Lt` token with the cursor advanced by 1; and in general, on an aligned
state, every operator match emits an `Op` token whose span has exactly
the matched length (1 or 2), the cursor advancing by exactly that
length over exactly the spanned characters. -/
theorem C5_greedy_operator_matching :
    (∀ rest' : List Char, ∃ l', Lexer.next_token (Lexer.new ('<' :: '=' :: rest')) =
        some (⟨Token.Op Op.LtEq, ⟨0, 1⟩⟩, l') ∧ l'.reader.curr_pos = 2) ∧
    (∀ (c : Char) (rest' : List Char), ¬ c = '=' → ¬ c = '>' →
      ∃ l', Lexer.next_token (Lexer.new ('<' :: c :: rest')) =
        some (⟨Token.Op Op.Lt, ⟨0, 0⟩⟩, l') ∧ l'.reader.curr_pos = 1) ∧
    (∀ (l : Lexer) (done : List Char) (c : Char) (rest₁ : List Char) (t : LexedToken)
        (l' : Lexer), Aligned l.reader done (c :: rest₁) →
      Lexer.scan_operator l = some (t, l') →
      ∃ op len, (len = 1 ∨ len = 2) ∧ t.token = Token.Op op ∧
        t.span.start = l.reader.curr_pos ∧ t.span.«end» + 1 = l.reader.curr_pos + len ∧
        l'.reader.curr_pos = l.reader.curr_pos + len ∧
        Aligned l'.reader (done ++ (c :: rest₁).take len) ((c :: rest₁).drop len)) := by
  refine ⟨?_, ?_, fun l done c rest₁ t l' h hs => Lexer.aligned_scan_operator_tight h hs⟩
  · intro rest'
    have h : Aligned (Lexer.new ('<' :: '=' :: rest')).reader [] ('<' :: '=' :: rest') :=
      Lexer.aligned_lexer_new _
    have hc : (Lexer.new ('<' :: '=' :: rest')).reader.curr_char = some '<' :=
      StringReader.aligned_curr h
    have hpk : (Lexer.new ('<' :: '=' :: rest')).reader.peek_next = some '=' := by
      rw [StringReader.aligned_peek h]
      rfl
    have hso := Lexer.scan_multi_of_cont hc (by decide) hpk (by decide)
      (by decide : Op.from_str ['<', '='] = some Op.LtEq)
    have hcm : Lexer.scan_comment (Lexer.new ('<' :: '=' :: rest')) = none :=
      Lexer.scan_comment_of_false (by simp [StringReader.curr_is, hc])
    have hbl : byteLen ['<', '='] = 2 := by decide
    have hcp : (Lexer.new ('<' :: '=' :: rest')).reader.curr_pos = 0 := rfl
    refine ⟨⟨(Lexer.new ('<' :: '=' :: rest')).reader.advance_bytes (byteLen ['<', '='])⟩,
      ?_, by rw [hbl]; rfl⟩
    simp only [Lexer.next_token, Lexer.next_token_opt, Lexer.scan_eof_of_some hc,
      Lexer.scan_whitespace_of_neg hc (by decide), hcm, Lexer.scan_operator, hso,
      LexedToken.new, Span.new, hbl, hcp]
  · intro c rest' hne hgt
    have h : Aligned (Lexer.new ('<' :: c :: rest')).reader [] ('<' :: c :: rest') :=
      Lexer.aligned_lexer_new _
    have hc : (Lexer.new ('<' :: c :: rest')).reader.curr_char = some '<' :=
      StringReader.aligned_curr h
    have hpk : (Lexer.new ('<' :: c :: rest')).reader.peek_next = some c := by
      rw [StringReader.aligned_peek h]
      rfl
    have hcf : is_multi_byte_op_cont c = false := by
      cases hb : is_multi_byte_op_cont c
      · rfl
      · rcases is_multi_byte_op_cont_cases hb with h1 | h1
        · exact absurd h1 hne
        · exact absurd h1 hgt
    have hso := Lexer.scan_multi_of_nocont hc (by decide) hpk (by simpa using hcf)
      (by decide : Op.from_str ['<'] = some Op.Lt)
    have hcm : Lexer.scan_comment (Lexer.new ('<' :: c :: rest')) = none :=
      Lexer.scan_comment_of_false (by simp [StringReader.curr_is, hc])
    have hbl : byteLen ['<'] = 1 := by decide
    have hcp : (Lexer.new ('<' :: c :: rest')).reader.curr_pos = 0 := rfl
    refine ⟨⟨(Lexer.new ('<' :: c :: rest')).reader.advance_bytes (byteLen ['<'])⟩,
      ?_, by rw [hbl]; rfl⟩
    simp only [Lexer.next_token, Lexer.next_token_opt, Lexer.scan_eof_of_some hc,
      Lexer.scan_whitespace_of_neg hc (by decide), hcm, Lexer.scan_operator, hso,
      LexedToken.new, Span.new, hbl, hcp]

/-- Witness for C5: `"<="`, `"<a"`, and a general-conjunct instance on
the single-character operator input `"+"`. -/
theorem C5_greedy_operator_matching_witness :
    (∃ l', Lexer.next_token (Lexer.new ('<' :: '=' :: [])) =
      some (⟨Token.Op Op.LtEq, ⟨0, 1⟩⟩, l') ∧ l'.reader.curr_pos = 2) ∧
    (∃ l', Lexer.next_token (Lexer.new ('<' :: 'a' :: [])) =
      some (⟨Token.Op Op.Lt, ⟨0, 0⟩⟩, l') ∧ l'.reader.curr_pos = 1) ∧
    (∃ op len, (len = 1 ∨ len = 2) ∧
      (⟨Token.Op Op.Plus, ⟨0, 0⟩⟩ : LexedToken).token = Token.Op op ∧
      (⟨Token.Op Op.Plus, ⟨0, 0⟩⟩ : LexedToken).span.start =
        (Lexer.new ['+']).reader.curr_pos ∧
      (⟨Token.Op Op.Plus, ⟨0, 0⟩⟩ : LexedToken).span.«end» + 1 =
        (Lexer.new ['+']).reader.curr_pos + len ∧
      (⟨⟨['+'], 0, 1, none⟩⟩ : Lexer).reader.curr_pos =
        (Lexer.new ['+']).reader.curr_pos + len ∧
      Aligned (⟨⟨['+'], 0, 1, none⟩⟩ : Lexer).reader ([] ++ (['+'] : List Char).take len)
        ((['+'] : List Char).drop len)) :=
  ⟨C5_greedy_operator_matching.1 [],
   C5_greedy_operator_matching.2.1 'a' [] (by decide) (by decide),
   C5_greedy_operator_matching.2.2 (Lexer.new ['+']) [] '+' []
     ⟨Token.Op Op.Plus, ⟨0, 0⟩⟩ ⟨⟨['+'], 0, 1, none⟩⟩
     ⟨by decide, by decide, by decide⟩ (by decide)⟩

/-- **C6** counterexample: U+00A0 (no-break space) is an
identifier-start character (it lies in the `'\u{80}'..='\u{FF}'` range)
and an identifier-continuation character, so `"\u{A0}"` is a maximal
identifier run starting at an identifier-start character; yet the
tokenizer emits a `Whitespace` token for it (the whitespace rule runs
first and U+00A0 is Unicode whitespace), not the `Identifier` the claim,
quantified over every such run, requires. -/
theorem C6_folding_counterexample :
    is_ident_start (Char.ofNat 0xA0) = true ∧
    is_ident_cont (Char.ofNat 0xA0) = true ∧
    (Lexer.next_token (Lexer.new [Char.ofNat 0xA0])).map (fun p => p.1.token) =
      some Token.Whitespace ∧
    ¬ Token.Whitespace = Token.Ident [charToLowercase (Char.ofNat 0xA0)] := by
  refine ⟨by decide, by decide, ?_, by decide⟩
  rw [← Lexer.next_tokenF_eq]
  decide

/-- **C6** (amended): for every maximal run of identifier characters
starting at an identifier-start character **that is not whitespace**
(the whitespace rule has priority, and U+0085/U+00A0 of the extended
range are Unicode whitespace), the tokenizer consumes exactly the run,
lowercases it, and emits `Keyword k` when `Keyword.from_str` recognises
the folded text and otherwise `Identifier` carrying the fully
lowercased text; a leading underscore is preserved and forces the
`Identifier` classification; `"select"`, `"SELECT"`, `"SeLeCt"` all
yield `Keyword Select`. -/
theorem C6_keyword_identifier_folding :
    (∀ (l : Lexer) (done : List Char) (c : Char) (rest₁ : List Char),
      Aligned l.reader done (c :: rest₁) → is_ident_start c = true →
      rustIsWhitespace c = false →
      ∃ l', Lexer.next_token l = some
        (⟨(Keyword.from_str (((c :: rest₁).takeWhile is_ident_cont).map charToLowercase)).elim
            (Token.Ident (((c :: rest₁).takeWhile is_ident_cont).map charToLowercase))
            Token.Keyword,
          ⟨byteLen done,
            byteLen done + byteLen ((c :: rest₁).takeWhile is_ident_cont).dropLast⟩⟩, l') ∧
        (c = '_' →
          Keyword.from_str (((c :: rest₁).takeWhile is_ident_cont).map charToLowercase) =
            none ∧
          ((c :: rest₁).takeWhile is_ident_cont).map charToLowercase =
            '_' :: (rest₁.takeWhile is_ident_cont).map charToLowercase)) ∧
    (Lexer.next_token (Lexer.new ("select".toList))).map (fun p => p.1.token) =
      some (Token.Keyword Keyword.Select) ∧
    (Lexer.next_token (Lexer.new ("SELECT".toList))).map (fun p => p.1.token) =
      some (Token.Keyword Keyword.Select) ∧
    (Lexer.next_token (Lexer.new ("SeLeCt".toList))).map (fun p => p.1.token) =
      some (Token.Keyword Keyword.Select) := by
  refine ⟨?_, ?_, ?_, ?_⟩
  · intro l done c rest₁ h hid hwf
    have hc : l.reader.curr_char = some c := StringReader.aligned_curr h
    obtain ⟨hres, -⟩ := Lexer.aligned_scan_ident h hid
    have hnd := Lexer.ident_start_ne_dash hid
    have hns := Lexer.ident_start_not_single hid
    have hnm := Lexer.ident_start_not_multi hid
    have hcm : Lexer.scan_comment l = none :=
      Lexer.scan_comment_of_false (by simp [StringReader.curr_is, hc, hnd])
    have hnt : Lexer.next_token l = some
        (LexedToken.new
          ((Keyword.from_str
              (((c :: rest₁).takeWhile is_ident_cont).map charToLowercase)).elim
            (Token.Ident (((c :: rest₁).takeWhile is_ident_cont).map charToLowercase))
            Token.Keyword)
          (byteLen done)
          (byteLen done + byteLen ((c :: rest₁).takeWhile is_ident_cont).dropLast),
         ⟨l.reader.advance_while is_ident_cont⟩) := by
      simp only [Lexer.next_token, Lexer.next_token_opt, Lexer.scan_eof_of_some hc,
        Lexer.scan_whitespace_of_neg hc hwf, hcm, Lexer.scan_operator,
        Lexer.scan_multi_of_notstart hc hnm, Lexer.scan_single_of_neg hc hns, hres]
    refine ⟨_, hnt, ?_⟩
    intro he
    subst he
    have htw : (('_' : Char) :: rest₁).takeWhile is_ident_cont =
        '_' :: rest₁.takeWhile is_ident_cont := List.takeWhile_cons_of_pos (by decide)
    rw [htw]
    have h1 : charToLowercase '_' = '_' := by decide
    simp only [List.map_cons, h1]
    exact ⟨keyword_from_str_underscore _, trivial⟩
  · rw [← Lexer.next_tokenF_eq]
    decide
  · rw [← Lexer.next_tokenF_eq]
    decide
  · rw [← Lexer.next_tokenF_eq]
    decide

/-- Witness for the amended C6 on the input `"_foo"` (leading
underscore: folded, preserved, classified as `Identifier`). -/
theorem C6_keyword_identifier_folding_witness :
    ∃ l', Lexer.next_token (Lexer.new ("_foo".toList)) = some
      (⟨(Keyword.from_str ((("_foo".toList).takeWhile is_ident_cont).map charToLowercase)).elim
          (Token.Ident ((("_foo".toList).takeWhile is_ident_cont).map charToLowercase))
          Token.Keyword,
        ⟨byteLen ([] : List Char),
          byteLen ([] : List Char) +
            byteLen (("_foo".toList).takeWhile is_ident_cont).dropLast⟩⟩, l') ∧
      (('_' : Char) = '_' →
        Keyword.from_str ((("_foo".toList).takeWhile is_ident_cont).map charToLowercase) =
          none ∧
        (("_foo".toList).takeWhile is_ident_cont).map charToLowercase =
          '_' :: (("foo".toList).takeWhile is_ident_cont).map charToLowercase) :=
  C6_keyword_identifier_folding.1 (Lexer.new ("_foo".toList)) [] '_' ("foo".toList)
    ⟨by decide, by decide, by decide⟩ (by decide) (by decide)

/-- **C7** (span well-formedness): starting from `Lexer::new` — an
aligned state — every token any sequence of `next_token` calls produces
has `span.start ≤ span.end` (so the `assert!(start <= end)` in
`Span::new` never fires, the multi-character operator path that computes
`end = start + len - 1` included), and each call leaves the state
aligned again, so the property propagates along the whole stream. -/
theorem C7_span_start_le_end :
    (∀ input : List Char, Aligned (Lexer.new input).reader [] input) ∧
    (∀ (l : Lexer) (done rest : List Char) (t : LexedToken) (l' : Lexer),
      Aligned l.reader done rest → Lexer.next_token l = some (t, l') →
      t.span.start ≤ t.span.«end» ∧ ∃ done' rest', Aligned l'.reader done' rest') := by
  refine ⟨Lexer.aligned_lexer_new, ?_⟩
  intro l done rest t l' h hnt
  rcases Lexer.next_token_step h hnt with
    ⟨-, -, hspan, hl⟩ | ⟨p, rest', -, -, -, ha, hstart, hmid, -⟩
  · refine ⟨le_of_eq hspan, done, rest, ?_⟩
    rw [hl]
    exact h
  · refine ⟨?_, done ++ p, rest', ha⟩
    rw [hstart]
    exact le_trans (Nat.le_add_right _ _) hmid

/-- Witness for C7 on the multi-byte operator input `"<="`. -/
theorem C7_span_start_le_end_witness :
    (⟨Token.Op Op.LtEq, ⟨0, 1⟩⟩ : LexedToken).span.start ≤
      (⟨Token.Op Op.LtEq, ⟨0, 1⟩⟩ : LexedToken).span.«end» ∧
    ∃ done' rest', Aligned (⟨⟨"<=".toList, 0, 2, none⟩⟩ : Lexer).reader done' rest' :=
  C7_span_start_le_end.2 (Lexer.new ("<=".toList)) [] ("<=".toList)
    ⟨Token.Op Op.LtEq, ⟨0, 1⟩⟩ ⟨⟨"<=".toList, 0, 2, none⟩⟩
    (Lexer.aligned_lexer_new _) (by rw [← Lexer.next_tokenF_eq]; decide)

/-- **C8** counterexample: after consuming `"a"` the reader is at end of
input, yet calling `advance` is *not* a state-preserving no-op — it
overwrites `prev_pos` with `curr_pos` (here 0 becomes 1), so the state
changes even though the position `curr_pos` stays put. -/
theorem C8_advance_at_eof_counterexample :
    ((StringReader.new ['a']).advance).is_eof = true ∧
    ((StringReader.new ['a']).advance).prev_pos = 0 ∧
    ((StringReader.new ['a']).advance).advance.prev_pos = 1 ∧
    ¬ ((StringReader.new ['a']).advance).advance = (StringReader.new ['a']).advance := by
  decide

/-- **C8** (amended): advancing at end of input leaves the position
(`curr_pos`), the current character and the input unchanged; the only
state change is that `prev_pos` is overwritten with `curr_pos` (a no-op
exactly when the two already coincide). -/
theorem C8_advance_at_eof {r : StringReader} {done : List Char}
    (h : Aligned r done []) :
    r.advance.curr_pos = r.curr_pos ∧ r.advance.curr_char = r.curr_char ∧
    r.advance.input = r.input ∧ r.advance.prev_pos = r.curr_pos := by
  have h0 := (StringReader.aligned_advance_eof h).1
  rw [h0]
  exact ⟨rfl, rfl, rfl, rfl⟩

/-- Witness for the amended C8 at the end of input `"a"`. -/
theorem C8_advance_at_eof_witness :
    ((StringReader.new ['a']).advance).advance.curr_pos =
      ((StringReader.new ['a']).advance).curr_pos ∧
    ((StringReader.new ['a']).advance).advance.curr_char =
      ((StringReader.new ['a']).advance).curr_char ∧
    ((StringReader.new ['a']).advance).advance.input =
      ((StringReader.new ['a']).advance).input ∧
    ((StringReader.new ['a']).advance).advance.prev_pos =
      ((StringReader.new ['a']).advance).curr_pos :=
  C8_advance_at_eof
    (show Aligned ((StringReader.new ['a']).advance) ['a'] []
      from ⟨by decide, by decide, by decide⟩)

/-- **C9** (position monotonicity): the cursor's read position is
non-negative and non-decreasing across `advance`, `advance_while`,
`advance_bytes`, `read_line` and `read_while`, and therefore across
every successful `next_token` call. -/
theorem C9_position_monotone :
    (∀ r : StringReader, 0 ≤ r.curr_pos ∧ r.curr_pos ≤ r.advance.curr_pos) ∧
    (∀ (r : StringReader) (test : Char → Bool),
      r.curr_pos ≤ (r.advance_while test).curr_pos) ∧
    (∀ (r : StringReader) (n : Nat), r.curr_pos ≤ (r.advance_bytes n).curr_pos) ∧
    (∀ r : StringReader, r.curr_pos ≤ r.read_line.2.curr_pos) ∧
    (∀ (r : StringReader) (test : Char → Bool),
      r.curr_pos ≤ (r.read_while test).2.curr_pos) ∧
    (∀ (l : Lexer) (t : LexedToken) (l' : Lexer), Lexer.next_token l = some (t, l') →
      l.reader.curr_pos ≤ l'.reader.curr_pos) :=
  ⟨fun r => ⟨Nat.zero_le _, StringReader.advance_curr_le r⟩,
   fun r test => StringReader.advance_while_curr_le test r,
   fun r n => StringReader.advance_bytes_curr_le r n,
   fun r => StringReader.read_line_curr_le r,
   fun r test => StringReader.read_while_curr_le test r,
   fun _ _ _ h => Lexer.next_token_curr_le h⟩

/-- Witness for C9's `next_token` conjunct on the input `"a"`. -/
theorem C9_position_monotone_witness :
    (Lexer.new ['a']).reader.curr_pos ≤ (⟨⟨['a'], 0, 1, none⟩⟩ : Lexer).reader.curr_pos :=
  C9_position_monotone.2.2.2.2.2 (Lexer.new ['a']) ⟨Token.Ident ['a'], ⟨0, 0⟩⟩
    ⟨⟨['a'], 0, 1, none⟩⟩ (by rw [← Lexer.next_tokenF_eq]; decide)

/-- **C10** counterexample: on `"-- x"` (whose tokens are all consumed
without error) the final `EndOfInput` token sits at span `(4, 4)` —
exactly the input's byte length 4 — while the last consumed character
`'x'` starts at byte 3; the claim says the `EndOfInput` span sits at the
start of the last consumed character and *not* at the input's byte
length. -/
theorem C10_eof_position_counterexample :
    tokenizeFuel 3 (Lexer.new ("-- x".toList)) =
      some [⟨Token.Comment (" x".toList), ⟨0, 4⟩⟩, ⟨Token.Eof, ⟨4, 4⟩⟩] ∧
    byteLen ("-- x".toList) = 4 ∧
    charAt ("-- x".toList) 3 = some 'x' ∧ ¬ (4 : Nat) = 3 := by
  refine ⟨?_, by decide, by decide, by decide⟩
  rw [← tokenizeFuelF_eq]
  decide

/-- **C10** (amended): the `EndOfInput` token is always emitted as a
zero-width span at the reader's `prev_pos`, with the state unchanged.
When the final pre-`Eof` advance consumed a real character — e.g. the
whitespace-only input `"   "` — `prev_pos` is the start offset of the
last consumed character (here `(2, 2)`, coinciding with the whitespace
span's end 2 and distinct from the byte length 3); but after a comment
that ran to end of input, `prev_pos` equals the input's byte length. -/
theorem C10_eof_span_at_prev_pos :
    (∀ (l : Lexer) (done : List Char), Aligned l.reader done [] →
      Lexer.next_token l =
        some (⟨Token.Eof, ⟨l.reader.prev_pos, l.reader.prev_pos⟩⟩, l)) ∧
    tokenizeFuel 3 (Lexer.new ("   ".toList)) =
      some [⟨Token.Whitespace, ⟨0, 2⟩⟩, ⟨Token.Eof, ⟨2, 2⟩⟩] ∧
    byteLen ("   ".toList) = 3 := by
  refine ⟨?_, ?_, by decide⟩
  · intro l done h
    have hc : l.reader.curr_char = none := by simpa using h.curr_eq
    simp only [Lexer.next_token, Lexer.next_token_opt, Lexer.scan_eof_of_none hc]
    rfl
  · rw [← tokenizeFuelF_eq]
    decide

/-- Witness for the amended C10 on the empty input. -/
theorem C10_eof_span_at_prev_pos_witness :
    Lexer.next_token (Lexer.new ([] : List Char)) =
      some (⟨Token.Eof, ⟨0, 0⟩⟩, Lexer.new ([] : List Char)) :=
  C10_eof_span_at_prev_pos.1 (Lexer.new []) [] ⟨by decide, by decide, by decide⟩

end Ursula
